import Mathlib

/-!
MonetDB5 `joinpath.c`: join-path cost model, planner and dispatcher

A shallow embedding of `src/MonetDB5/modules/mal/joinpath.c`.

* `ALGjoinCost`      : the cost estimate of one binary join (lines 46-151)
* `ALGjoinChain`     : the fused chain evaluator (lines 161-231)
* `ALGjoinPathBody`  : the pairwise reduction planner (lines 233-342)
* `ALGjoinPath`      : the MAL entry point / dispatcher (lines 344-407)

Machine integers are `Nat`/`Int`; the one multiplication of `BUN` values that can
wrap is reduced modulo `2 ^ bunBits`.  The constants that `gdk.h` supplies
(`BUN_MAX`, the width of `BUN`, `TYPE_void`, `TYPE_oid`, `oid_nil`) are collected in a
record `Gdk`, so that every definition is stated for an arbitrary build; `gdk64` holds
the values of a 64-bit build.
-/

namespace JoinPath

/-! ## Data model -/

/-- The constants that `joinpath.c` takes from `gdk.h`.  `bunBits` is the width of the
unsigned type `BUN` (and of `oid` and `size_t`). -/
structure Gdk where
  bunBits : Nat
  BUN_MAX : Nat
  TYPE_void : Int
  TYPE_oid : Int
  oid_nil : Nat
deriving DecidableEq, Repr

/-- The `gdk.h` values of a 64-bit build: `BUN` is a 64-bit unsigned integer,
`BUN_MAX = BUN_NONE - 1 = LLONG_MAX - 1`, `oid_nil = 1 << 63`. -/
def gdk64 : Gdk :=
  { bunBits := 64, BUN_MAX := 2 ^ 63 - 2, TYPE_void := 0, TYPE_oid := 6, oid_nil := 2 ^ 63 }

/-- The descriptor of a column (`BAT`), restricted to what `joinpath.c` reads.
`tdense`, `hdense`, `tordered`, `hordered` are the values of the `gdk.h` macros
`BATtdense`, `BAThdense`, `BATtordered`, `BAThordered` on the column; `tail` lists the
tail values in the order in which `BUNtail` delivers them from `BUNfirst` on. -/
structure BAT where
  batCacheid : Int
  count : Nat
  htype : Int
  ttype : Int
  hseqbase : Nat
  first : Nat
  tail : List Nat
  tkey : Bool
  hkey : Bool
  tdense : Bool
  hdense : Bool
  tordered : Bool
  hordered : Bool
  tsorted : Bool
  trevsorted : Bool
  tnil : Bool
  tnonil : Bool
deriving DecidableEq, Repr, Inhabited

/-- `BATcount(b)`. -/
def BATcount (b : BAT) : Nat := b.count

/-- `BATtdense(b)`. -/
def BATtdense (b : BAT) : Bool := b.tdense

/-- `BAThdense(b)`. -/
def BAThdense (b : BAT) : Bool := b.hdense

/-- `BATtordered(b)`. -/
def BATtordered (b : BAT) : Bool := b.tordered

/-- `BAThordered(b)`. -/
def BAThordered (b : BAT) : Bool := b.hordered

/-! ## The cost model -/

/-- `#define SMALL_OPERAND 1024` (line 44). -/
def SMALL_OPERAND : Nat := 1024

/-- Lines 76-89 of `ALGjoinCost`: the value of `cost` after the logical properties
have been used.  `lc * rc` is a product of two `BUN`s, hence taken modulo
`2 ^ bunBits`. -/
def ALGjoinCost_logical (g : Gdk) (l r : BAT) : Nat :=
  let lc := BATcount l
  let rc := BATcount r
  if l.tkey && r.hkey then
    min lc rc
  else if l.tkey then
    rc
  else if r.hkey then
    lc
  else if (lc * rc) % 2 ^ g.bunBits ≥ g.BUN_MAX then
    g.BUN_MAX
  else
    (lc * rc) % 2 ^ g.bunBits

/-- `ALGjoinCost(cntxt, l, r, flag)` (lines 46-151): the logical bound of lines 76-89
scaled by the first physical-property rule of lines 91-146 that applies. -/
def ALGjoinCost (g : Gdk) (l r : BAT) (flag : Int) : Nat :=
  let lc := BATcount l
  let rc := BATcount r
  let cost := ALGjoinCost_logical g l r
  if BATtdense l && BAThdense r then
    cost / 7
  else if BATtordered l && BAThdense r then
    cost / 6
  else if BATtdense l && BAThordered r && flag != 0 then
    cost / 6
  else if BAThdense r && decide (rc ≤ SMALL_OPERAND) then
    cost / 5
  else if BATtdense l && decide (lc ≤ SMALL_OPERAND) && flag != 0 then
    cost / 5
  else if BATtordered l && BAThordered r then
    cost / 4
  else if BAThordered r && decide (rc ≤ SMALL_OPERAND) then
    cost / 3
  else if BATtordered l && decide (lc ≤ SMALL_OPERAND) && flag != 0 then
    cost / 3
  else if (BAThordered r && decide (lc ≤ SMALL_OPERAND))
      || (BATtordered l && decide (rc ≤ SMALL_OPERAND)) then
    cost / 3
  else if decide (rc ≤ SMALL_OPERAND) then
    cost / 3
  else if decide (lc ≤ SMALL_OPERAND) && flag != 0 then
    cost / 3
  else if BAThdense r then
    cost / 2
  else if BATtdense l && flag != 0 then
    cost / 2
  else
    cost / 1

/-! ### The cost model as the specification words it -/

/-- One row of the rule table of the specification: condition, divisor and whether the
row is suppressed in left-join mode. -/
structure CostRule where
  cond : BAT → BAT → Bool
  divisor : Nat
  ljSuppress : Bool

/-- The 14 rows of the specification's table, top to bottom, with `SMALL = 1024`. -/
def costTable : List CostRule :=
  [ ⟨fun l r => l.tdense && r.hdense, 7, false⟩,
    ⟨fun l r => l.tordered && r.hdense, 6, false⟩,
    ⟨fun l r => l.tdense && r.hordered, 6, true⟩,
    ⟨fun _ r => r.hdense && decide (r.count ≤ 1024), 5, false⟩,
    ⟨fun l _ => l.tdense && decide (l.count ≤ 1024), 5, true⟩,
    ⟨fun l r => l.tordered && r.hordered, 4, false⟩,
    ⟨fun _ r => r.hordered && decide (r.count ≤ 1024), 3, false⟩,
    ⟨fun l _ => l.tordered && decide (l.count ≤ 1024), 3, true⟩,
    ⟨fun l r => (r.hordered && decide (l.count ≤ 1024))
        || (l.tordered && decide (r.count ≤ 1024)), 3, false⟩,
    ⟨fun _ r => decide (r.count ≤ 1024), 3, false⟩,
    ⟨fun l _ => decide (l.count ≤ 1024), 3, true⟩,
    ⟨fun _ r => r.hdense, 2, false⟩,
    ⟨fun l _ => l.tdense, 2, true⟩,
    ⟨fun _ _ => true, 1, false⟩ ]

/-- Whether a row of the table may fire for this pair in this mode: its condition
holds and it is not a suppressed row in left-join mode (`flag = 0`). -/
def CostRule.fires (rule : CostRule) (l r : BAT) (flag : Int) : Bool :=
  rule.cond l r && !(rule.ljSuppress && flag == 0)

/-- The divisor of the first row of the table, top to bottom, that fires. -/
def specDivisor (l r : BAT) (flag : Int) : Nat :=
  match costTable.find? (fun rule => rule.fires l r flag) with
  | some rule => rule.divisor
  | none => 1

/-- The Phase-A bound of the specification, over exact (unbounded) arithmetic. -/
def specPhaseA (l r : BAT) : Nat :=
  if l.tkey = true ∧ r.hkey = true then min l.count r.count
  else if l.tkey = true then r.count
  else if r.hkey = true then l.count
  else l.count * r.count

/-- The specification's `saturating_mul`: the exact product capped at `COUNT_MAX`. -/
def saturating_mul (g : Gdk) (a b : Nat) : Nat := min (a * b) g.BUN_MAX

/-- A column with the given identifier and count and no property set. -/
def plainBAT (id : Int) (n : Nat) : BAT :=
  { (default : BAT) with batCacheid := id, count := n }

/-! ## The pairwise planner `ALGjoinPathBody` -/

/-- One invocation of an operator primitive of the storage layer, with its arguments. -/
inductive PrimCall where
  | BATleftjoin (l r : BAT) (estimate : Nat)
  | BATjoin (l r : BAT) (estimate : Nat)
  | BATproject (l r : BAT)
deriving DecidableEq, Repr

/-- The variables of `ALGjoinPathBody` that live across iterations of its `while`
loop, with two logs: `unfixed` lists the `BBPunfix` calls (by `batCacheid`) in the
order they were made, `calls` lists the operator-primitive invocations with what each
returned (`none` is `NULL`).  `joins` is the C array `joins`; only the slots below
`top` are live. -/
structure PathState where
  top : Nat
  joins : List BAT
  postpone : List Bool
  postponed : Nat
  b : Option BAT
  unfixed : List Int
  calls : List (PrimCall × Option BAT)
deriving DecidableEq, Repr

/-- How one pass through the body of the `while` loop ends: at the next test of the
loop condition (`next`, reached by `continue` or by falling off the end of the body), or
with a `return` (`ret`). -/
inductive StepResult where
  | next (s : PathState)
  | ret (b : Option BAT) (s : PathState)
deriving DecidableEq, Repr

/-- Lines 249-263: the running minimum `(estimate, j)` after the `for` loop over
`i = 1 .. top - 2`. -/
def selectPair (g : Gdk) (flag : Int) (s : PathState) : Nat × Nat :=
  (List.range' 1 (s.top - 2)).foldl
    (fun (acc : Nat × Nat) (i : Nat) =>
      let e := ALGjoinCost g (s.joins.getD i default) (s.joins.getD (i + 1) default) flag
      if e < acc.1 ∧ (¬ (s.postpone.getD i false = true ∧ s.postpone.getD (i + 1) false = true)
          ∨ s.postponed < s.top) then (e, i) else acc)
    (ALGjoinCost g (s.joins.getD 0 default) (s.joins.getD 1 default) flag, 0)

/-- The state after invoking a primitive: the call and its result are logged and the
result is assigned to `b`.  The primitives are given as `prims n c`, the result of the
invocation `c` when `n` invocations have been made before it. -/
def invoke (prims : Nat → PrimCall → Option BAT) (c : PrimCall) (s : PathState) : PathState :=
  let res := prims s.calls.length c
  { s with b := res, calls := s.calls ++ [(c, res)] }

/-- Lines 274-286: the `switch (flag)`.  Case 0 falls through to case 1 when `j ≠ 0`;
for a `flag` other than 0, 1, 3 no case applies and `b` keeps its value. -/
def execute (prims : Nat → PrimCall → Option BAT) (flag : Int) (j : Nat) (s : PathState) :
    PathState :=
  let l := s.joins.getD j default
  let r := s.joins.getD (j + 1) default
  if flag = 0 then
    if j = 0 then
      invoke prims (.BATleftjoin l r (BATcount l)) s
    else
      invoke prims (.BATjoin l r (if BATcount l < BATcount r then BATcount l else BATcount r)) s
  else if flag = 1 then
    invoke prims (.BATjoin l r (if BATcount l < BATcount r then BATcount l else BATcount r)) s
  else if flag = 3 then
    invoke prims (.BATproject l r) s
  else
    s

/-- The loop `for (--top; top >= 0; top--) BBPunfix(joins[top]->batCacheid);`: the
identifiers released, in the order of release. -/
def unfixAll (joins : List BAT) (top : Nat) : List Int :=
  (List.range top).reverse.map (fun i => (joins.getD i default).batCacheid)

/-- Lines 296-298: `postponed = 0; for (k = 0; k < top; k++) postponed += postpone[k] == TRUE;`. -/
def countPostponed (postpone : List Bool) (top : Nat) : Nat :=
  (List.range top).foldl
    (fun acc k => acc + (if postpone.getD k false = true then 1 else 0)) 0

/-- Lines 311-312: `for (k = 0; k < top; k++) postpone[k] = FALSE;`. -/
def resetPostponed (postpone : List Bool) (top : Nat) : List Bool :=
  (List.range top).foldl (fun p k => p.set k false) postpone

/-- Lines 335-336: `for (i = j + 1; i < top; i++) joins[i] = joins[i + 1];`, with `top`
already decremented. -/
def shiftJoins (joins : List BAT) (j top : Nat) : List BAT :=
  (List.range' (j + 1) (top - (j + 1))).foldl
    (fun js i => js.set i (js.getD (i + 1) default)) joins

/-- Lines 249-336: one pass through the body of `while (top > 1)`.  The debug output
(`ALGODEBUG`), the clearing of `cntxt->errbuf` and `BATsetaccess` touch nothing that is
recorded in `PathState` and are left out; the test `b == 0` of line 325 is never true
on the path that reaches it. -/
def loopBody (g : Gdk) (prims : Nat → PrimCall → Option BAT) (flag : Int) (s : PathState) :
    StepResult :=
  let j := (selectPair g flag s).2
  let s1 := execute prims flag j s
  match s1.b with
  | none =>
    if s1.postpone.getD j false && s1.postpone.getD (j + 1) false then
      .ret none { s1 with unfixed := s1.unfixed ++ unfixAll s1.joins s1.top }
    else
      let postpone := (s1.postpone.set j true).set (j + 1) true
      let postponed := countPostponed postpone s1.top
      if postponed = s1.top then
        .ret none { s1 with postpone := postpone, postponed := postponed,
                            unfixed := s1.unfixed ++ unfixAll s1.joins s1.top }
      else
        .next { s1 with postpone := postpone, postponed := postponed }
  | some b =>
    let postpone := resetPostponed s1.postpone s1.top
    let unfixed := s1.unfixed ++
      [(s1.joins.getD j default).batCacheid, (s1.joins.getD (j + 1) default).batCacheid]
    let joins := s1.joins.set j b
    let top := s1.top - 1
    .next { s1 with top := top, joins := shiftJoins joins j top, postpone := postpone,
                    postponed := 0, unfixed := unfixed }

/-- Lines 248-341: the `while (top > 1)` loop followed by `b = joins[0]; return b;`.
`fuel` bounds the number of passes through the loop body; `none` means that the bound
was reached before the loop ended.  The result is the returned pointer and the final
state. -/
def whileLoop (g : Gdk) (prims : Nat → PrimCall → Option BAT) (flag : Int) :
    Nat → PathState → Option (Option BAT × PathState)
  | fuel, s =>
    if 1 < s.top then
      match fuel with
      | 0 => none
      | fuel + 1 =>
        match loopBody g prims flag s with
        | .next s1 => whileLoop g prims flag fuel s1
        | .ret b s1 => some (b, s1)
    else
      some (some (s.joins.getD 0 default), { s with b := some (s.joins.getD 0 default) })

/-- The state at the head of the `while` loop in its first pass: `postpone` is the
zero-filled array of `top` entries. -/
def initState (top : Nat) (joins : List BAT) : PathState :=
  { top := top, joins := joins, postpone := List.replicate top false, postponed := 0,
    b := none, unfixed := [], calls := [] }

/-- `ALGjoinPathBody(cntxt, top, joins, flag)` (lines 233-342).  `zallocOk` tells whether
`GDKzalloc` delivered the `postpone` array; when it did not the function returns `NULL`
at once (lines 242-245). -/
def ALGjoinPathBody (g : Gdk) (prims : Nat → PrimCall → Option BAT) (fuel : Nat)
    (zallocOk : Bool) (top : Nat) (joins : List BAT) (flag : Int) :
    Option (Option BAT × PathState) :=
  if zallocOk then
    whileLoop g prims flag fuel (initState top joins)
  else
    some (none, { initState top joins with postpone := [] })

/-- The identifiers of the columns the primitives returned during a run. -/
def produced (calls : List (PrimCall × Option BAT)) : List Int :=
  calls.filterMap (fun c => c.2.map (fun b => b.batCacheid))

/-- The identifiers of the live slots of the array. -/
def held (joins : List BAT) (top : Nat) : List Int :=
  (joins.take top).map (fun b => b.batCacheid)

/-- The primitives that fail on every invocation. -/
def allNull : Nat → PrimCall → Option BAT := fun _ _ => none

/-! ## The chain evaluator `ALGjoinChain` -/

/-- `#define MAXCHAINDEPTH 256` (line 159). -/
def MAXCHAINDEPTH : Nat := 256

/-- `BUNtail(bi, p)` read as an identifier: the tail value stored at position `p` of the
column, positions being counted from `BUNfirst`; `none` when `p` is not a position of
the column. -/
def BUNtail (b : BAT) (p : Nat) : Option Nat :=
  if b.first ≤ p then b.tail[p - b.first]? else none

/-- What the walk of one row of `joins[0]` comes to: a read outside a column (`fault`,
with the column index and the position), the jump to `bunins_failed` (`dropped`), or the
identifier `oc` with which the inner loop ends. -/
inductive RowResult where
  | fault (col pos : Nat)
  | dropped
  | survived (oc : Nat)
deriving DecidableEq, Repr

/-- Lines 202-207: the inner loop over the columns `i` of the given list, started with
identifier `oc`.  `oc + offset[i]` is `size_t` arithmetic. -/
def chainLookups (g : Gdk) (joins : List BAT) (offset : List Nat) : List Nat → Nat → RowResult
  | [], oc => .survived oc
  | i :: rest, oc =>
    let pos := (oc + offset.getD i 0) % 2 ^ g.bunBits
    match BUNtail (joins.getD i default) pos with
    | none => .fault i pos
    | some v => if v = g.oid_nil then .dropped else chainLookups g joins offset rest v

/-- The result of `ALGjoinChain`: a read outside a column, after which the behaviour of
the C code is undefined, or the returned column `bn` with the `BBPunfix` calls made. -/
inductive ChainOutcome where
  | fault (col pos : Nat)
  | done (bn : Option BAT) (unfixed : List Int)
deriving DecidableEq, Repr

/-- Lines 199-218: the loop over the rows `lo` of `joins[0]`, threading the values
appended to `bn` and the counter `cnt`; `none` of the accumulator's first component
stands for no fault so far. -/
def chainRows (g : Gdk) (joins : List BAT) (offset : List Nat) (pcol : Nat) (cnt : Nat) :
    Option (Nat × Nat) × List Nat × Nat :=
  (List.range (BATcount (joins.getD 0 default))).foldl
    (fun (acc : Option (Nat × Nat) × List Nat × Nat) lo =>
      match acc.1 with
      | some _ => acc
      | none =>
        match (joins.getD 0 default).tail[lo]? with
        | none => (some (0, (joins.getD 0 default).first + lo), acc.2)
        | some oc0 =>
          match chainLookups g joins offset (List.range' 1 (pcol - 1)) oc0 with
          | .fault col pos => (some (col, pos), acc.2)
          | .dropped => acc
          | .survived oc =>
            let pos := (oc + offset.getD pcol 0) % 2 ^ g.bunBits
            match BUNtail (joins.getD pcol default) pos with
            | none => (some (pcol, pos), acc.2)
            | some v => (none, acc.2.1 ++ [v], acc.2.2 + 1))
    (none, [], cnt)

/-- `ALGjoinChain(cntxt, top, joins)` (lines 161-231).  `BATnew` is the allocator of the
storage layer, given head type, tail type and capacity.  `bunfastapp` is an append: the
capacity asked for is the largest count of the chain, so no extension is needed.  The
final `BATderiveProps` and `BATsetaccess` are not modelled. -/
def ALGjoinChain (g : Gdk) (BATnew : Int → Int → Nat → Option BAT) (top : Nat)
    (joins : List BAT) : ChainOutcome :=
  let pcol := top - 1
  -- lines 176-182: (cnt, cap, empty, offset)
  let pre := (List.range top).foldl
    (fun (acc : Nat × Nat × Nat × List Nat) i =>
      let cnt := BATcount (joins.getD i default)
      let cap := if cnt > acc.2.1 then BATcount (joins.getD i default) else acc.2.1
      let empty := acc.2.2.1 + (if cnt = 0 then 1 else 0)
      let off := ((joins.getD i default).first + 2 ^ g.bunBits
        - (joins.getD i default).hseqbase % 2 ^ g.bunBits) % 2 ^ g.bunBits
      (cnt, cap, empty, acc.2.2.2 ++ [off]))
    (0, 0, 0, [])
  let cnt := pre.1
  let cap := pre.2.1
  let empty := pre.2.2.1
  let offset := pre.2.2.2
  match BATnew g.TYPE_void (joins.getD pcol default).ttype cap with
  | none => .done none []
  | some bn =>
    if empty ≠ 0 then
      .done (some bn) []
    else
      let last := joins.getD pcol default
      let bn := { bn with tnonil := last.tnonil, tsorted := last.tsorted,
                          trevsorted := last.trevsorted, tkey := last.tkey }
      match chainRows g joins offset pcol cnt with
      | (some (col, pos), _) => .fault col pos
      | (none, vals, cnt) =>
        let bn := { bn with tail := bn.tail ++ vals, count := cnt,
                            hseqbase := (joins.getD 0 default).hseqbase }
        .done (some bn) ((List.range top).map (fun i => (joins.getD i default).batCacheid))

/-! ## The dispatcher `ALGjoinPath` -/

/-- The exception texts `ALGjoinPath` throws. -/
inductive MalError where
  | MAL_MALLOC_FAIL
  | SEMANTIC_TYPE_MISMATCH
  | INTERNAL_BAT_ACCESS
  | INTERNAL_OBJ_CREATE
deriving DecidableEq, Repr

/-- Which evaluator `ALGjoinPath` handed the request to. -/
inductive Route where
  | notReached
  | chain
  | body (flag : Int)
deriving DecidableEq, Repr

/-- What a call of `ALGjoinPath` did: `msg` is the exception thrown (`none` for
`MAL_SUCCEED`), `r` the identifier written to the return slot, `fixed` the identifiers
whose reference was acquired through `BATdescriptor`, `unfixed` the `BBPunfix` calls,
`kept` the `BBPkeepref` calls, `calls` the operator-primitive invocations. -/
structure PathResult where
  msg : Option MalError
  r : Option Int
  fixed : List Int
  unfixed : List Int
  kept : List Int
  calls : List (PrimCall × Option BAT)
  route : Route
deriving DecidableEq, Repr

/-- Lines 362-364: the test that column `b` does not fit behind `prev = joins[top-1]`. -/
def typeMismatch (g : Gdk) (prev b : BAT) : Bool :=
  !(prev.ttype == b.htype) &&
  !(prev.ttype == g.TYPE_void && b.htype == g.TYPE_oid) &&
  !(prev.ttype == g.TYPE_oid && b.htype == g.TYPE_void)

/-- The state in which the loop of lines 358-376 ends: the exception it throws (if any),
the array `joins` (whose length is `top`), and the references acquired and released. -/
structure Acquired where
  error : Option MalError
  joins : List BAT
  fixed : List Int
  unfixed : List Int
deriving DecidableEq, Repr

/-- Lines 358-376: the loop over the argument identifiers, given the array filled so
far (`top` is its length) and the references acquired so far.  `BATdescriptor` resolves
an identifier to a column, or to `none` for `NULL`; when it succeeds it has acquired a
reference to the column, which is recorded in `fixed`. -/
def acquireLoop (g : Gdk) (BATdescriptor : Int → Option BAT) :
    List Int → List BAT → List Int → Acquired
  | [], joins, fixed => { error := none, joins := joins, fixed := fixed, unfixed := [] }
  | bid :: rest, joins, fixed =>
    let top := joins.length
    match BATdescriptor bid with
    | none =>
      { error := some .INTERNAL_BAT_ACCESS, joins := joins, fixed := fixed,
        unfixed := unfixAll joins top }
    | some b =>
      if top ≠ 0 ∧ typeMismatch g (joins.getD (top - 1) default) b = true then
        -- `b = NULL; error = 1;` and then the branch `b == NULL`
        { error := some .SEMANTIC_TYPE_MISMATCH, joins := joins, fixed := fixed ++ [bid],
          unfixed := unfixAll joins top }
      else
        acquireLoop g BATdescriptor rest (joins ++ [b]) (fixed ++ [bid])

/-- Lines 377-381: the detection of easy chains (lines 378-380), whose outcome line 381
overwrites with `chain = 0`. -/
def chainFlag (joins : List BAT) (top : Nat) : Bool :=
  let _detected := (List.range' 1 (top - 1)).foldl
    (fun (chain : Bool) i =>
      if BATcount (joins.getD (i - 1) default) > BATcount (joins.getD i default) then false
      else chain) true
  false

/-- Lines 401-406: publish the result of the evaluator or throw. -/
def publish (b : Option BAT) (fixed unfixed : List Int)
    (calls : List (PrimCall × Option BAT)) (route : Route) : PathResult :=
  match b with
  | some bn =>
    { msg := none, r := some bn.batCacheid, fixed := fixed, unfixed := unfixed,
      kept := [bn.batCacheid], calls := calls, route := route }
  | none =>
    { msg := some .INTERNAL_OBJ_CREATE, r := none, fixed := fixed, unfixed := unfixed,
      kept := [], calls := calls, route := route }

/-- `ALGjoinPath(cntxt, mb, stk, pci)` (lines 344-407).  `args` are the identifiers of
the arguments `pci->retc .. pci->argc - 1`, `fcn` is the function name of the
instruction, `mallocOk` tells whether `GDKmalloc` delivered the array `joins`.  `none`
means that the evaluator has no defined result (loop bound reached, or a read outside a
column in the chain evaluator). -/
def ALGjoinPath (g : Gdk) (BATdescriptor : Int → Option BAT)
    (BATnew : Int → Int → Nat → Option BAT) (prims : Nat → PrimCall → Option BAT)
    (fuel : Nat) (mallocOk zallocOk : Bool) (fcn : String) (args : List Int) :
    Option PathResult :=
  if !mallocOk then
    some { msg := some .MAL_MALLOC_FAIL, r := none, fixed := [], unfixed := [], kept := [],
           calls := [], route := .notReached }
  else
    let acq := acquireLoop g BATdescriptor args [] []
    match acq.error with
    | some err =>
      some { msg := some err, r := none, fixed := acq.fixed, unfixed := acq.unfixed,
             kept := [], calls := [], route := .notReached }
    | none =>
      let joins := acq.joins
      let top := joins.length
      let chain := chainFlag joins top
      if fcn = "joinPath" then
        (ALGjoinPathBody g prims fuel zallocOk top joins 1).map
          (fun res => publish res.1 acq.fixed res.2.unfixed res.2.calls (.body 1))
      else if fcn = "leftjoinPath" then
        (ALGjoinPathBody g prims fuel zallocOk top joins 0).map
          (fun res => publish res.1 acq.fixed res.2.unfixed res.2.calls (.body 0))
      else if chain = true ∧ top < MAXCHAINDEPTH then
        match ALGjoinChain g BATnew top joins with
        | .fault _ _ => none
        | .done bn unfixed => some (publish bn acq.fixed unfixed [] .chain)
      else
        (ALGjoinPathBody g prims fuel zallocOk top joins 3).map
          (fun res => publish res.1 acq.fixed res.2.unfixed res.2.calls (.body 3))

/-! ## Invariants of the planner loop -/

/-- The shape invariant of the loop: at least one live slot, and both arrays cover the
live slots. -/
def PathInv (s : PathState) : Prop :=
  1 ≤ s.top ∧ s.top ≤ s.joins.length ∧ s.top ≤ s.postpone.length

/-- The variant of the loop: it decreases with every pass that does not return. -/
def loopMeasure (s : PathState) : Nat :=
  s.top * s.top + (s.top - countPostponed s.postpone s.top)

/-- Reference conservation: the references released so far together with those held
in the live slots are the input references together with those the primitives
produced. -/
def Conserved (inputs : List Int) (s : PathState) : Prop :=
  (s.unfixed ++ held s.joins s.top).Perm (inputs ++ produced s.calls)

/-! ## Notions used to state the properties of the planner and the dispatcher -/

/-- The primitive invocation that the `switch` makes in left-join mode (`flag = 0`) for
the selected index `j`: the left-join primitive for `j = 0`, else the general join. -/
def leftJoinCall (joins : List BAT) (j : Nat) : PrimCall :=
  if j = 0 then
    .BATleftjoin (joins.getD 0 default) (joins.getD 1 default) (BATcount (joins.getD 0 default))
  else
    .BATjoin (joins.getD j default) (joins.getD (j + 1) default)
      (min (BATcount (joins.getD j default)) (BATcount (joins.getD (j + 1) default)))

/-- Three columns for left-join mode in which the second pair is the cheaper one: the
estimates are `10 ^ 12` for the first pair and 3 for the second. -/
def ljPath : List BAT :=
  [plainBAT 1 1000000, { plainBAT 2 1000000 with tkey := true }, plainBAT 3 10]

/-- Primitives that always succeed, the `n`-th invocation delivering column `100 + n`. -/
def freshPrims : Nat → PrimCall → Option BAT := fun n _ => some (plainBAT (100 + n) 10)

/-- Column `i` of a request, if input `i` exists and can be acquired. -/
def column (BATdescriptor : Int → Option BAT) (args : List Int) (i : Nat) : Option BAT :=
  args[i]?.bind BATdescriptor

/-- Compatibility of adjacent columns as the specification words it: the tail type of
the left one is the head type of the right one, or void meets oid. -/
def compatible (g : Gdk) (a b : BAT) : Prop :=
  a.ttype = b.htype ∨ (a.ttype = g.TYPE_void ∧ b.htype = g.TYPE_oid) ∨
    (a.ttype = g.TYPE_oid ∧ b.htype = g.TYPE_void)

/-- Input `i` of the request raises no problem: it can be acquired and, unless it is the
first one, it is compatible with the column before it. -/
def noProblemAt (g : Gdk) (BATdescriptor : Int → Option BAT) (args : List Int) (i : Nat) :
    Prop :=
  ∃ b, column BATdescriptor args i = some b ∧
    (1 ≤ i → ∃ a, column BATdescriptor args (i - 1) = some a ∧ compatible g a b)

/-- Input `i ≥ 1` can be acquired but is incompatible with the column before it. -/
def mismatchAt (g : Gdk) (BATdescriptor : Int → Option BAT) (args : List Int) (i : Nat) :
    Prop :=
  1 ≤ i ∧ ∃ a b, column BATdescriptor args (i - 1) = some a ∧
    column BATdescriptor args i = some b ∧ ¬ compatible g a b

/-- The storage of the type-mismatch scenario: column 1 has an `int` tail (type 5),
column 2 an `oid` head, and no other identifier is known. -/
def mismatchBBP : Int → Option BAT := fun id =>
  if id = 1 then some { plainBAT 1 3 with htype := 0, ttype := 5 }
  else if id = 2 then some { plainBAT 2 3 with htype := 6, ttype := 6 }
  else none

/-- An allocator that always fails. -/
def noBATnew : Int → Int → Nat → Option BAT := fun _ _ _ => none

/-- The two columns at which the bound P5 fails: an empty left operand with a unique
tail against a right operand of 5000 rows whose head is not unique. -/
def p5Left : BAT := { plainBAT 1 0 with tkey := true }

/-- The right operand of the P5 counterexample. -/
def p5Right : BAT := plainBAT 2 5000

/-- A storage with two compatible columns: column 1 has an `oid` tail, column 2 an
`oid` head. -/
def okBBP : Int → Option BAT := fun id =>
  if id = 1 then some { plainBAT 1 3 with htype := 0, ttype := 6 }
  else if id = 2 then some { plainBAT 2 3 with htype := 6, ttype := 5 }
  else none

/-- Three plain columns of 2000 rows each. -/
def path3 : List BAT := [plainBAT 1 2000, plainBAT 2 2000, plainBAT 3 2000]

/-- A column of 2000 rows with a dense tail. -/
def denseTail : BAT := { plainBAT 1 2000 with tdense := true }

/-- A column of 3000 rows with a sorted head. -/
def sortedHead : BAT := { plainBAT 2 3000 with hordered := true }

/-- A column of `2 ^ 32` rows and no property set. -/
def wideBAT (id : Int) : BAT := plainBAT id (2 ^ 32)

/-! ## Notions used to state the properties of the chain evaluator and of single steps -/

/-- The part of the representation invariant of a column that the chain evaluator
relies on: the tail holds `count` values, and the positions and the head identifiers of
the column fit the machine word. -/
def wellFormed (g : Gdk) (b : BAT) : Prop :=
  b.tail.length = b.count ∧ b.first + b.count ≤ 2 ^ g.bunBits ∧
    b.hseqbase + b.count ≤ 2 ^ g.bunBits

/-- Step 2 of the algorithm of the specification for one row: walk the intermediate
columns `cols`, reading `v = C_i.tail[oc - C_i.head_seq_base]`; a null identifier
abandons the row (`none`), else `oc = v`. -/
def specWalk (nil : Nat) : List BAT → Nat → Option Nat
  | [], oc => some oc
  | c :: rest, oc =>
    let v := c.tail.getD (oc - c.hseqbase) 0
    if v = nil then none else specWalk nil rest v

/-- The identifiers read along the walk of one row stay in range: started with `oc` on
the columns `cols`, the identifier lies in the head range of the first column, and the
identifier read there, unless it is null, stays in range on the remaining columns. -/
def walkInRange (nil : Nat) : List BAT → Nat → Bool
  | [], _ => true
  | c :: rest, oc =>
    decide (c.hseqbase ≤ oc ∧ oc < c.hseqbase + c.count) &&
      (c.tail.getD (oc - c.hseqbase) 0 == nil
        || walkInRange nil rest (c.tail.getD (oc - c.hseqbase) 0))

/-- Steps 1-3 of the algorithm of the specification for the row of `C_0` whose tail
value is `oc0`, in a chain of `k` columns: the value emitted, or `none` when the row is
abandoned. -/
def specChainRow (g : Gdk) (k : Nat) (joins : List BAT) (oc0 : Nat) : Option Nat :=
  (specWalk g.oid_nil ((joins.take (k - 1)).drop 1) oc0).map
    (fun oc => (joins.getD (k - 1) default).tail.getD
      (oc - (joins.getD (k - 1) default).hseqbase) 0)

/-- The values the specification has the chain evaluator emit, in the row order of
`C_0`. -/
def specChain (g : Gdk) (k : Nat) (joins : List BAT) : List Nat :=
  (joins.getD 0 default).tail.filterMap (specChainRow g k joins)

/-- The first loop of `ALGjoinChain` (lines 176-182) on its own: the final values of
`cnt`, `cap`, `empty` and the array `offset`. -/
def chainPre (g : Gdk) (top : Nat) (joins : List BAT) : Nat × Nat × Nat × List Nat :=
  (List.range top).foldl
    (fun (acc : Nat × Nat × Nat × List Nat) i =>
      let cnt := BATcount (joins.getD i default)
      let cap := if cnt > acc.2.1 then BATcount (joins.getD i default) else acc.2.1
      let empty := acc.2.2.1 + (if cnt = 0 then 1 else 0)
      let off := ((joins.getD i default).first + 2 ^ g.bunBits
        - (joins.getD i default).hseqbase % 2 ^ g.bunBits) % 2 ^ g.bunBits
      (cnt, cap, empty, acc.2.2.2 ++ [off]))
    (0, 0, 0, [])

/-- The primitive invocation the specification prescribes for mode `flag` and selected
index `j`: left join on the first pair in left-join mode, projection in projection mode,
the general join otherwise. -/
def modeCall (flag : Int) (joins : List BAT) (j : Nat) : PrimCall :=
  if flag = 0 ∧ j = 0 then
    .BATleftjoin (joins.getD 0 default) (joins.getD 1 default) (BATcount (joins.getD 0 default))
  else if flag = 0 ∨ flag = 1 then
    .BATjoin (joins.getD j default) (joins.getD (j + 1) default)
      (min (BATcount (joins.getD j default)) (BATcount (joins.getD (j + 1) default)))
  else
    .BATproject (joins.getD j default) (joins.getD (j + 1) default)

/-- The call log with which a pass through the loop body ends, however it ends. -/
def StepResult.calls : StepResult → List (PrimCall × Option BAT)
  | .next s => s.calls
  | .ret _ s => s.calls

/-- No postpone flag is set beyond the live slots. -/
def PostponeInv (s : PathState) : Prop :=
  ∀ i, s.top ≤ i → s.postpone.getD i false = false

/-- An allocator that always delivers an empty column, with identifier 50. -/
def freshBATnew : Int → Int → Nat → Option BAT := fun ht tt _ =>
  some { plainBAT 50 0 with htype := ht, ttype := tt }

/-- The two-column foreign-key walk: `[0..3) → [10, 11, 12]` and
`[10..13) → [97, 98, 99]`. -/
def fkChain : List BAT :=
  [{ plainBAT 1 3 with ttype := 6, hseqbase := 0, tail := [10, 11, 12] },
   { plainBAT 2 3 with htype := 6, ttype := 5, hseqbase := 10, tail := [97, 98, 99] }]

/-- The three-column chain with a null identifier in the tail of its first column:
`[0..4) → [10, 11, nil, 12]`, `[10..13) → [100, 101, 102]`, `[100..103) → [97, 98, 99]`. -/
def nilChain : List BAT :=
  [{ plainBAT 1 4 with ttype := 6, hseqbase := 0, tail := [10, 11, 2 ^ 63, 12] },
   { plainBAT 2 3 with htype := 6, ttype := 6, hseqbase := 10, tail := [100, 101, 102] },
   { plainBAT 3 3 with htype := 6, ttype := 5, hseqbase := 100, tail := [97, 98, 99] }]

/-- A three-column chain with a null identifier in the tail of its second column:
`[0..3) → [10, 11, 12]`, `[10..13) → [100, nil, 102]`, `[100..103) → [97, 98, 99]`. -/
def midNilChain : List BAT :=
  [{ plainBAT 1 3 with ttype := 6, hseqbase := 0, tail := [10, 11, 12] },
   { plainBAT 2 3 with htype := 6, ttype := 6, hseqbase := 10, tail := [100, 2 ^ 63, 102] },
   { plainBAT 3 3 with htype := 6, ttype := 5, hseqbase := 100, tail := [97, 98, 99] }]

/-- A chain whose first column is empty. -/
def emptyChain : List BAT :=
  [{ plainBAT 1 0 with ttype := 6, hseqbase := 0, tail := [] },
   { plainBAT 2 3 with htype := 6, ttype := 5, hseqbase := 10, tail := [97, 98, 99] }]

/-- Four columns whose second pair has the smallest estimate in full-join mode (3,
against `10 ^ 12` for the first and 13333333 for the third pair). -/
def path4 : List BAT :=
  [plainBAT 1 1000000, { plainBAT 2 1000000 with tkey := true }, plainBAT 3 10,
   plainBAT 4 4000000]

/-- The mode with which the dispatcher calls the planner for a function name: 1
(full join) for `joinPath`, 0 (left join) for `leftjoinPath`, 3 (projection) otherwise. -/
def dispatchFlag (fcn : String) : Int :=
  if fcn = "joinPath" then 1 else if fcn = "leftjoinPath" then 0 else 3

/-- Well-formedness of a column can be checked. -/
instance wellFormedDecidable (g : Gdk) (b : BAT) : Decidable (wellFormed g b) := by
  unfold wellFormed
  infer_instance

/-! ## Theorems: cost model -/

theorem ite_le_of_le (p : Prop) [Decidable p] (a b c : Nat) (ha : a ≤ c) (hb : b ≤ c) :
    (if p then a else b) ≤ c := by
  by_cases hp : p
  · rw [if_pos hp]; exact ha
  · rw [if_neg hp]; exact hb

theorem ALGjoinCost_le_logical (g : Gdk) (l r : BAT) (flag : Int) :
    ALGjoinCost g l r flag ≤ ALGjoinCost_logical g l r := by
  unfold ALGjoinCost
  dsimp only
  repeat' apply ite_le_of_le
  all_goals exact Nat.div_le_self _ _

theorem ALGjoinCost_logical_eq_spec (g : Gdk) (l r : BAT)
    (hmax : g.BUN_MAX < 2 ^ g.bunBits) (hprod : l.count * r.count < g.BUN_MAX) :
    ALGjoinCost_logical g l r = specPhaseA l r := by
  have hlt : l.count * r.count < 2 ^ g.bunBits := lt_trans hprod hmax
  unfold ALGjoinCost_logical specPhaseA BATcount
  dsimp only
  rw [Nat.mod_eq_of_lt hlt]
  cases l.tkey <;> cases r.hkey <;> simp [Nat.not_le.mpr hprod]

/-- The cascade of lines 91-146 and the table lookup agree, for every value of the
seven conditions they test. -/
theorem cascade_eq_table (A : Nat) (td hd ts hs sl sr z : Bool) :
    (if (td && hd) = true then A / 7
      else if (ts && hd) = true then A / 6
      else if (td && hs && !z) = true then A / 6
      else if (hd && sr) = true then A / 5
      else if (td && sl && !z) = true then A / 5
      else if (ts && hs) = true then A / 4
      else if (hs && sr) = true then A / 3
      else if (ts && sl && !z) = true then A / 3
      else if ((hs && sl) || (ts && sr)) = true then A / 3
      else if sr = true then A / 3
      else if (sl && !z) = true then A / 3
      else if hd = true then A / 2
      else if (td && !z) = true then A / 2
      else A / 1)
    = A / (match
        ([ (td && hd && !(false && z), 7), (ts && hd && !(false && z), 6),
           (td && hs && !(true && z), 6), (hd && sr && !(false && z), 5),
           (td && sl && !(true && z), 5), (ts && hs && !(false && z), 4),
           (hs && sr && !(false && z), 3), (ts && sl && !(true && z), 3),
           (((hs && sl) || (ts && sr)) && !(false && z), 3), (sr && !(false && z), 3),
           (sl && !(true && z), 3), (hd && !(false && z), 2), (td && !(true && z), 2),
           (true && !(false && z), 1) ] : List (Bool × Nat)).find? (fun p => p.1) with
        | some p => p.2
        | none => 1) := by
  cases td <;> cases hd <;> cases ts <;> cases hs <;> cases sl <;> cases sr <;> cases z <;> rfl

/-- Looking a rule up in a table is looking up its (fires, divisor) pair. -/
theorem find_fires_eq (l r : BAT) (flag : Int) (rules : List CostRule) :
    (match rules.find? (fun rule => rule.fires l r flag) with
      | some rule => rule.divisor
      | none => 1)
    = (match (rules.map (fun rule => (rule.fires l r flag, rule.divisor))).find?
          (fun p => p.1) with
      | some p => p.2
      | none => 1) := by
  induction rules with
  | nil => rfl
  | cons rule rest ih =>
    by_cases h : rule.fires l r flag = true
    · simp [List.find?, h]
    · simp only [Bool.not_eq_true] at h
      simp only [List.find?, List.map, h]
      exact ih

theorem ALGjoinCost_logical_le_sat (g : Gdk) (l r : BAT)
    (hl : l.count ≤ g.BUN_MAX) (hr : r.count ≤ g.BUN_MAX)
    (hlk : l.tkey = true → r.hkey = false → 1 ≤ l.count)
    (hrk : l.tkey = false → r.hkey = true → 1 ≤ r.count) :
    ALGjoinCost_logical g l r ≤ saturating_mul g l.count r.count := by
  have hmod : l.count * r.count % 2 ^ g.bunBits ≤ l.count * r.count := Nat.mod_le _ _
  unfold ALGjoinCost_logical saturating_mul BATcount
  dsimp only
  rcases hk : l.tkey <;> rcases hk2 : r.hkey
  · simp only [Bool.and_self, Bool.false_eq_true, if_false]
    by_cases hge : l.count * r.count % 2 ^ g.bunBits ≥ g.BUN_MAX
    · rw [if_pos hge]
      exact le_min (le_trans hge hmod) le_rfl
    · rw [if_neg hge]
      exact le_min hmod (le_of_lt (Nat.not_le.mp hge))
  · have h1 := hrk hk hk2
    simp only [Bool.false_and, Bool.false_eq_true, if_false, if_true]
    exact le_min (Nat.le_mul_of_pos_right _ h1) hl
  · have h1 := hlk hk hk2
    simp only [Bool.and_false, Bool.false_eq_true, if_false, if_true]
    exact le_min (Nat.le_mul_of_pos_left _ h1) hr
  · simp only [Bool.and_self, if_true]
    refine le_min ?_ (le_trans (min_le_left _ _) hl)
    rcases Nat.eq_zero_or_pos l.count with h0 | hpos
    · rw [h0]; simp
    · rcases Nat.eq_zero_or_pos r.count with h0 | hpos2
      · rw [h0]; simp
      · exact le_trans (min_le_left _ _) (Nat.le_mul_of_pos_right _ hpos2)

theorem ALGjoinCost_logical_le_max (g : Gdk) (l r : BAT)
    (hl : l.count ≤ g.BUN_MAX) (hr : r.count ≤ g.BUN_MAX) :
    ALGjoinCost_logical g l r ≤ g.BUN_MAX := by
  unfold ALGjoinCost_logical BATcount
  dsimp only
  split_ifs with h1 h2 h3 h4
  · exact le_trans (min_le_left _ _) hl
  · exact hr
  · exact hl
  · exact le_rfl
  · exact le_of_lt (Nat.not_le.mp h4)

theorem ALGjoinCost_eq_spec_aux (g : Gdk) (l r : BAT) (flag : Int)
    (hmax : g.BUN_MAX < 2 ^ g.bunBits) (hprod : l.count * r.count < g.BUN_MAX) :
    ALGjoinCost g l r flag = specPhaseA l r / specDivisor l r flag := by
  have h1 := cascade_eq_table (specPhaseA l r) l.tdense r.hdense l.tordered r.hordered
    (decide (l.count ≤ 1024)) (decide (r.count ≤ 1024)) (flag == 0)
  have h2 := find_fires_eq l r flag costTable
  unfold ALGjoinCost
  rw [ALGjoinCost_logical_eq_spec g l r hmax hprod]
  unfold specDivisor
  rw [h2]
  exact h1

/-! ## Lemmas: the arrays of the planner -/

theorem countPostponed_succ (p : List Bool) (n : Nat) :
    countPostponed p (n + 1) = countPostponed p n + (if p.getD n false = true then 1 else 0) := by
  unfold countPostponed
  rw [List.range_succ, List.foldl_append]
  rfl

theorem countPostponed_le (p : List Bool) (n : Nat) : countPostponed p n ≤ n := by
  induction n with
  | zero => simp [countPostponed]
  | succ n ih =>
    rw [countPostponed_succ]
    split <;> omega

theorem countPostponed_mono (p q : List Bool) (n : Nat)
    (h : ∀ k, k < n → p.getD k false = true → q.getD k false = true) :
    countPostponed p n ≤ countPostponed q n := by
  induction n with
  | zero => simp [countPostponed]
  | succ n ih =>
    rw [countPostponed_succ, countPostponed_succ]
    have ih1 := ih (fun k hk => h k (Nat.lt_succ_of_lt hk))
    have hn := h n (Nat.lt_succ_self n)
    by_cases hp : p.getD n false = true
    · rw [if_pos hp, if_pos (hn hp)]; omega
    · rw [if_neg hp]; split <;> omega

theorem countPostponed_lt (p q : List Bool) (n k : Nat) (hk : k < n)
    (h : ∀ i, i < n → p.getD i false = true → q.getD i false = true)
    (hpk : p.getD k false = false) (hqk : q.getD k false = true) :
    countPostponed p n < countPostponed q n := by
  induction n with
  | zero => omega
  | succ n ih =>
    rw [countPostponed_succ, countPostponed_succ]
    have hmono := countPostponed_mono p q n (fun i hi => h i (Nat.lt_succ_of_lt hi))
    by_cases hkn : k = n
    · subst hkn
      rw [hpk, hqk]
      simp only [Bool.false_eq_true, if_false, if_true]
      omega
    · have hk1 : k < n := by omega
      have ih1 := ih hk1 (fun i hi => h i (Nat.lt_succ_of_lt hi))
      have hn := h n (Nat.lt_succ_self n)
      by_cases hp : p.getD n false = true
      · rw [if_pos hp, if_pos (hn hp)]; omega
      · rw [if_neg hp]; split <;> omega

theorem getD_set_set_true (p : List Bool) (j i : Nat) (h : p.getD i false = true) :
    ((p.set j true).set (j + 1) true).getD i false = true := by
  simp only [List.getD_eq_getElem?_getD, List.getElem?_set, List.length_set] at h ⊢
  have hlen : i < p.length := by
    by_contra hc
    rw [List.getElem?_eq_none (Nat.le_of_not_lt hc)] at h
    simp at h
  split
  · split
    · rfl
    · omega
  · split
    · split
      · rfl
      · omega
    · exact h

theorem getD_set_set_left (p : List Bool) (j : Nat) (hj : j + 1 < p.length) :
    ((p.set j true).set (j + 1) true).getD j false = true := by
  simp only [List.getD_eq_getElem?_getD, List.getElem?_set, List.length_set]
  have h1 : ¬ (j + 1 = j) := by omega
  have h2 : j < p.length := by omega
  simp [h1, h2]

theorem getD_set_set_right (p : List Bool) (j : Nat) (hj : j + 1 < p.length) :
    ((p.set j true).set (j + 1) true).getD (j + 1) false = true := by
  simp only [List.getD_eq_getElem?_getD, List.getElem?_set, List.length_set]
  simp [hj]

theorem length_resetPostponed (p : List Bool) (n : Nat) :
    (resetPostponed p n).length = p.length := by
  unfold resetPostponed
  induction n with
  | zero => simp
  | succ n ih => rw [List.range_succ, List.foldl_append]; simp [ih]

theorem length_shiftJoins (js : List BAT) (j top : Nat) :
    (shiftJoins js j top).length = js.length := by
  unfold shiftJoins
  generalize top - (j + 1) = n
  generalize j + 1 = a
  induction n generalizing js with
  | zero => simp
  | succ n ih =>
    rw [List.range'_concat, List.foldl_append]
    simp only [List.foldl_cons, List.foldl_nil, List.length_set]
    exact ih js

theorem shift_fold_getElem? (i : Nat) (n a : Nat) (js : List BAT) (h : a + n < js.length) :
    (List.foldl (fun (js : List BAT) i => js.set i (js.getD (i + 1) default)) js
        (List.range' a n))[i]?
      = if a ≤ i ∧ i < a + n then js[i + 1]? else js[i]? := by
  induction n generalizing a js with
  | zero =>
    have hc : ¬ (a ≤ i ∧ i < a + 0) := by omega
    rw [if_neg hc]
    rfl
  | succ n ih =>
    rw [List.range'_succ, List.foldl_cons]
    have hlen : a + 1 + n < (js.set a (js.getD (a + 1) default)).length := by
      rw [List.length_set]; omega
    rw [ih (a + 1) _ hlen]
    have ha1 : a + 1 < js.length := by omega
    have hget : js.getD (a + 1) default = js[a + 1] := by
      simp [List.getElem?_eq_getElem ha1]
    by_cases hc : a + 1 ≤ i ∧ i < a + 1 + n
    · have hc2 : a ≤ i ∧ i < a + (n + 1) := by omega
      rw [if_pos hc, if_pos hc2, List.getElem?_set]
      have hne : ¬ (a = i + 1) := by omega
      rw [if_neg hne]
    · rw [if_neg hc, List.getElem?_set]
      by_cases hia : a = i
      · subst hia
        have hc2 : a ≤ a ∧ a < a + (n + 1) := by omega
        have ha : a < js.length := by omega
        rw [if_pos rfl, if_pos ha, if_pos hc2, hget, List.getElem?_eq_getElem ha1]
      · have hc2 : ¬ (a ≤ i ∧ i < a + (n + 1)) := by omega
        rw [if_neg hia, if_neg hc2]

theorem shiftJoins_take (js : List BAT) (b : BAT) (j top : Nat)
    (h1 : j + 2 ≤ top) (h2 : top ≤ js.length) :
    (shiftJoins (js.set j b) j (top - 1)).take (top - 1)
      = js.take j ++ b :: (js.take top).drop (j + 2) := by
  apply List.ext_getElem?
  intro i
  have hlen : j + 1 + (top - 1 - (j + 1)) < (js.set j b).length := by
    rw [List.length_set]; omega
  unfold shiftJoins
  rw [List.getElem?_take, shift_fold_getElem? i _ _ _ hlen]
  have hjl : j < js.length := by omega
  rcases Nat.lt_trichotomy i j with hij | hij | hij
  · have c1 : i < top - 1 := by omega
    have c2 : ¬ (j + 1 ≤ i ∧ i < j + 1 + (top - 1 - (j + 1))) := by omega
    have c3 : ¬ (j = i) := by omega
    have c4 : i < (js.take j).length := by rw [List.length_take]; omega
    rw [if_pos c1, if_neg c2, List.getElem?_set, if_neg c3, List.getElem?_append_left c4,
      List.getElem?_take, if_pos hij]
  · subst hij
    have c1 : i < top - 1 := by omega
    have c2 : ¬ (i + 1 ≤ i ∧ i < i + 1 + (top - 1 - (i + 1))) := by omega
    have c4 : (js.take i).length ≤ i := by rw [List.length_take]; omega
    have c5 : i - (js.take i).length = 0 := by rw [List.length_take]; omega
    rw [if_pos c1, if_neg c2, List.getElem?_set, if_pos rfl, if_pos hjl,
      List.getElem?_append_right c4, c5, List.getElem?_cons_zero]
  · have c4 : (js.take j).length ≤ i := by rw [List.length_take]; omega
    have c5 : i - (js.take j).length = (i - j - 1) + 1 := by rw [List.length_take]; omega
    rw [List.getElem?_append_right c4, c5, List.getElem?_cons_succ, List.getElem?_drop,
      List.getElem?_take]
    have c6 : j + 2 + (i - j - 1) = i + 1 := by omega
    rw [c6]
    by_cases c1 : i < top - 1
    · have c2 : j + 1 ≤ i ∧ i < j + 1 + (top - 1 - (j + 1)) := by omega
      have c3 : ¬ (j = i + 1) := by omega
      have c7 : i + 1 < top := by omega
      rw [if_pos c1, if_pos c2, List.getElem?_set, if_neg c3, if_pos c7]
    · have c7 : ¬ (i + 1 < top) := by omega
      rw [if_neg c1, if_neg c7]

theorem selectPair_fold_bound (top : Nat) (f : Nat × Nat → Nat → Nat × Nat)
    (hf : ∀ acc i, f acc i = acc ∨ (f acc i).2 = i)
    (l : List Nat) (hl : ∀ i ∈ l, i + 2 ≤ top) (acc : Nat × Nat) (hacc : acc.2 + 2 ≤ top) :
    (l.foldl f acc).2 + 2 ≤ top := by
  induction l generalizing acc with
  | nil => exact hacc
  | cons i rest ih =>
    rw [List.foldl_cons]
    apply ih (fun k hk => hl k (List.mem_cons_of_mem _ hk))
    rcases hf acc i with h | h
    · rw [h]; exact hacc
    · rw [h]; exact hl i (List.mem_cons_self _ _)

theorem selectPair_bound (g : Gdk) (flag : Int) (s : PathState) (h : 2 ≤ s.top) :
    (selectPair g flag s).2 + 2 ≤ s.top := by
  unfold selectPair
  apply selectPair_fold_bound
  · intro acc i
    dsimp only
    split
    · right; rfl
    · left; rfl
  · intro i hi
    rw [List.mem_range'_1] at hi
    omega
  · exact h

/-! ## Lemmas: one pass through the loop body -/

theorem execute_cases (prims : Nat → PrimCall → Option BAT) (flag : Int) (j : Nat)
    (s : PathState) :
    (∃ c, execute prims flag j s = invoke prims c s ∧ (flag = 0 ∨ flag = 1 ∨ flag = 3)) ∨
      (execute prims flag j s = s ∧ flag ≠ 0 ∧ flag ≠ 1 ∧ flag ≠ 3) := by
  unfold execute
  dsimp only
  split
  · rename_i h0
    split
    · exact Or.inl ⟨_, rfl, Or.inl h0⟩
    · exact Or.inl ⟨_, rfl, Or.inl h0⟩
  · split
    · rename_i h1
      exact Or.inl ⟨_, rfl, Or.inr (Or.inl h1)⟩
    · split
      · rename_i h3
        exact Or.inl ⟨_, rfl, Or.inr (Or.inr h3)⟩
      · rename_i h0 h1 h3
        exact Or.inr ⟨rfl, h0, h1, h3⟩

/-- What `execute` leaves alone, and what it may add to the call log. -/
theorem execute_frame (prims : Nat → PrimCall → Option BAT) (flag : Int) (j : Nat)
    (s : PathState) :
    (execute prims flag j s).top = s.top ∧ (execute prims flag j s).joins = s.joins ∧
    (execute prims flag j s).postpone = s.postpone ∧
    (execute prims flag j s).unfixed = s.unfixed ∧
    ((∃ c, (execute prims flag j s).calls = s.calls ++ [(c, (execute prims flag j s).b)] ∧
        (execute prims flag j s).b = prims s.calls.length c ∧
        (flag = 0 ∨ flag = 1 ∨ flag = 3)) ∨
      ((execute prims flag j s).calls = s.calls ∧ (execute prims flag j s).b = s.b ∧
        flag ≠ 0 ∧ flag ≠ 1 ∧ flag ≠ 3)) := by
  rcases execute_cases prims flag j s with ⟨c, hc, hf⟩ | ⟨hs, hf⟩
  · rw [hc]
    exact ⟨rfl, rfl, rfl, rfl, Or.inl ⟨c, rfl, rfl, hf⟩⟩
  · rw [hs]
    exact ⟨rfl, rfl, rfl, rfl, Or.inr ⟨rfl, rfl, hf⟩⟩

/-- The three ways a pass through the loop body can go, in terms of the state `s1` after
the `switch`: return after a failure, retry after a failure, or reduction. -/
theorem loopBody_cases (g : Gdk) (prims : Nat → PrimCall → Option BAT) (flag : Int)
    (s : PathState) :
    let j := (selectPair g flag s).2
    let s1 := execute prims flag j s
    (s1.b = none ∧ ∃ s2, loopBody g prims flag s = .ret none s2 ∧ s2.calls = s1.calls ∧
        s2.unfixed = s1.unfixed ++ unfixAll s1.joins s1.top) ∨
    (s1.b = none ∧
      ¬ (s1.postpone.getD j false = true ∧ s1.postpone.getD (j + 1) false = true) ∧
      loopBody g prims flag s =
        .next { s1 with postpone := (s1.postpone.set j true).set (j + 1) true,
                        postponed :=
                          countPostponed ((s1.postpone.set j true).set (j + 1) true) s1.top }
      ∧ countPostponed ((s1.postpone.set j true).set (j + 1) true) s1.top ≠ s1.top) ∨
    (∃ b, s1.b = some b ∧
      loopBody g prims flag s =
        .next { s1 with top := s1.top - 1,
                        joins := shiftJoins (s1.joins.set j b) j (s1.top - 1),
                        postpone := resetPostponed s1.postpone s1.top,
                        postponed := 0,
                        unfixed := s1.unfixed ++ [(s1.joins.getD j default).batCacheid,
                          (s1.joins.getD (j + 1) default).batCacheid] }) := by
  intro j s1
  rcases Option.eq_none_or_eq_some s1.b with hb | ⟨b, hb⟩
  · by_cases hpp : s1.postpone.getD j false = true ∧ s1.postpone.getD (j + 1) false = true
    · left
      refine ⟨hb, ({ s1 with unfixed := s1.unfixed ++ unfixAll s1.joins s1.top } : PathState),
        ?_, rfl, rfl⟩
      unfold loopBody
      simp only [j, s1] at hb hpp ⊢
      simp only [hb, hpp, Bool.and_self, if_true]
    · by_cases hcnt : countPostponed ((s1.postpone.set j true).set (j + 1) true) s1.top = s1.top
      · left
        refine ⟨hb, ({ s1 with
          postpone := (s1.postpone.set j true).set (j + 1) true,
          postponed := countPostponed ((s1.postpone.set j true).set (j + 1) true) s1.top,
          unfixed := s1.unfixed ++ unfixAll s1.joins s1.top } : PathState), ?_, rfl, rfl⟩
        unfold loopBody
        simp only [j, s1] at hb hpp hcnt ⊢
        simp only [hb, Bool.and_eq_true, hpp, if_false, hcnt, if_true]
      · right; left
        refine ⟨hb, hpp, ?_, hcnt⟩
        unfold loopBody
        simp only [j, s1] at hb hpp hcnt ⊢
        simp only [hb, Bool.and_eq_true, hpp, if_false, hcnt]
  · right; right
    refine ⟨b, hb, ?_⟩
    unfold loopBody
    simp only [j, s1] at hb ⊢
    simp only [hb]

theorem perm_reduce (u A D I P : List Int) (x y b : Int)
    (h : (u ++ (A ++ x :: y :: D)).Perm (I ++ P)) :
    ((u ++ [x, y]) ++ (A ++ b :: D)).Perm (I ++ (P ++ [b])) := by
  rw [List.perm_iff_count] at h ⊢
  intro a
  have ha := h a
  simp only [List.count_append, List.count_cons, List.count_nil] at ha ⊢
  omega

theorem take_split (js : List BAT) (j top : Nat) (h1 : j + 2 ≤ top) (h2 : top ≤ js.length) :
    js.take top = js.take j ++ js.getD j default :: js.getD (j + 1) default ::
      (js.take top).drop (j + 2) := by
  have hj : j < js.length := by omega
  have hj1 : j + 1 < js.length := by omega
  have hlen : (js.take top).length = top := by rw [List.length_take]; omega
  have hj' : j < (js.take top).length := by omega
  have hj1' : j + 1 < (js.take top).length := by omega
  have e1 : js.getD j default = (js.take top)[j] := by
    simp [List.getElem?_eq_getElem hj, List.getElem_take]
  have e2 : js.getD (j + 1) default = (js.take top)[j + 1] := by
    simp [List.getElem?_eq_getElem hj1, List.getElem_take]
  have e3 : js.take j = (js.take top).take j := by
    rw [List.take_take]
    congr 1
    omega
  rw [e1, e2, e3, ← List.drop_eq_getElem_cons hj1', ← List.drop_eq_getElem_cons hj',
    List.take_append_drop]

theorem produced_append (calls : List (PrimCall × Option BAT)) (c : PrimCall)
    (r : Option BAT) :
    produced (calls ++ [(c, r)]) = produced calls ++ (r.map (fun b => b.batCacheid)).toList := by
  unfold produced
  rw [List.filterMap_append]
  cases r <;> simp [List.filterMap]

/-- Everything the proofs need to know about a pass that does not return. -/
theorem loopBody_next (g : Gdk) (prims : Nat → PrimCall → Option BAT) (flag : Int)
    (s s2 : PathState) (hinv : PathInv s) (htop : 1 < s.top)
    (h : loopBody g prims flag s = .next s2) :
    PathInv s2 ∧ loopMeasure s2 < loopMeasure s ∧ s2.calls.length ≤ s.calls.length + 1 ∧
    (s.b = none → flag ≠ 0 → flag ≠ 1 → flag ≠ 3 → s2.b = none) ∧
    (∀ inputs, (s.b = none ∨ flag = 0 ∨ flag = 1 ∨ flag = 3) → Conserved inputs s →
      Conserved inputs s2) := by
  obtain ⟨h1, h2, h3⟩ := hinv
  have hj := selectPair_bound g flag s (by omega)
  obtain ⟨ft, fj, fp, fu, fc⟩ := execute_frame prims flag (selectPair g flag s).2 s
  have hcases := loopBody_cases g prims flag s
  dsimp only at hcases
  generalize (selectPair g flag s).2 = j at *
  generalize execute prims flag j s = s1 at *
  obtain ⟨top1, joins1, pp1, pd1, b1, u1, c1⟩ := s1
  dsimp only at ft fj fp fu fc hcases
  subst ft fj fp fu
  have hcalls : c1.length ≤ s.calls.length + 1 := by
    rcases fc with ⟨c, hc, _⟩ | ⟨hc, _⟩
    · rw [hc]; simp
    · rw [hc]; omega
  rcases hcases with ⟨_, s3, hr, _⟩ | ⟨hb, hpp, hn, hcnt⟩ | ⟨b, hb, hn⟩
  · rw [hr] at h; cases h
  · rw [hn] at h
    injection h with h
    subst h
    subst hb
    refine ⟨?_, ?_, hcalls, fun _ _ _ _ => rfl, ?_⟩
    · refine ⟨h1, h2, ?_⟩
      show s.top ≤ (List.set _ _ _).length
      rw [List.length_set, List.length_set]; exact h3
    · unfold loopMeasure
      dsimp only
      have hle := countPostponed_le ((s.postpone.set j true).set (j + 1) true) s.top
      have hlt : countPostponed s.postpone s.top
          < countPostponed ((s.postpone.set j true).set (j + 1) true) s.top := by
        by_cases hl : s.postpone.getD j false = true
        · have hr : s.postpone.getD (j + 1) false = false := by
            by_contra hc
            exact hpp ⟨hl, by simpa using hc⟩
          exact countPostponed_lt _ _ s.top (j + 1) (by omega)
            (fun i _ hi => getD_set_set_true _ _ _ hi) hr
            (getD_set_set_right _ _ (by omega))
        · have hl' : s.postpone.getD j false = false := by simpa using hl
          exact countPostponed_lt _ _ s.top j (by omega)
            (fun i _ hi => getD_set_set_true _ _ _ hi) hl'
            (getD_set_set_left _ _ (by omega))
      omega
    · intro inputs _ hcons
      unfold Conserved at hcons ⊢
      dsimp only
      rcases fc with ⟨c, hc, _⟩ | ⟨hc, _⟩
      · rw [hc, produced_append]
        simpa using hcons
      · rw [hc]; exact hcons
  · rw [hn] at h
    injection h with h
    subst h
    subst hb
    refine ⟨?_, ?_, hcalls, ?_, ?_⟩
    · refine ⟨?_, ?_, ?_⟩
      · show 1 ≤ s.top - 1
        omega
      · show s.top - 1 ≤ (shiftJoins _ _ _).length
        rw [length_shiftJoins, List.length_set]; omega
      · show s.top - 1 ≤ (resetPostponed _ _).length
        rw [length_resetPostponed]; omega
    · unfold loopMeasure
      dsimp only
      obtain ⟨u, hu⟩ : ∃ u, s.top = u + 1 := ⟨s.top - 1, by omega⟩
      rw [hu]
      have e : (u + 1) * (u + 1) = u * u + 2 * u + 1 := by ring
      rw [e]
      simp only [Nat.add_sub_cancel]
      omega
    · intro hs f0 f1 f3
      rcases fc with ⟨c, _, _, hf⟩ | ⟨_, hbs, _⟩
      · omega
      · rw [hs] at hbs; cases hbs
    · intro inputs hflag hcons
      unfold Conserved at hcons ⊢
      dsimp only
      have hprod : produced c1 = produced s.calls ++ [b.batCacheid] := by
        rcases fc with ⟨c, hc, _⟩ | ⟨_, hbs, f0, f1, f3⟩
        · rw [hc, produced_append]; rfl
        · exfalso
          rcases hflag with hs | hs | hs | hs
          · rw [hs] at hbs; cases hbs
          · exact f0 hs
          · exact f1 hs
          · exact f3 hs
      rw [hprod]
      unfold held at hcons ⊢
      rw [shiftJoins_take s.joins b _ s.top hj h2]
      rw [take_split s.joins j s.top hj h2] at hcons
      simp only [List.map_append, List.map_cons] at hcons ⊢
      exact perm_reduce _ _ _ _ _ _ _ _ hcons

theorem map_getD_range (js : List BAT) (top : Nat) (h : top ≤ js.length) :
    (List.range top).map (fun i => js.getD i default) = js.take top := by
  apply List.ext_getElem?
  intro i
  rw [List.getElem?_map, List.getElem?_take]
  by_cases hi : i < top
  · have hil : i < js.length := by omega
    rw [List.getElem?_range hi, if_pos hi]
    simp [List.getElem?_eq_getElem hil]
  · rw [if_neg hi, List.getElem?_eq_none (by simpa using hi)]
    rfl

theorem unfixAll_perm_held (js : List BAT) (top : Nat) (h : top ≤ js.length) :
    (unfixAll js top).Perm (held js top) := by
  unfold unfixAll held
  rw [← map_getD_range js top h, List.map_map, List.map_reverse]
  exact List.reverse_perm _

/-- Everything the proofs need to know about a pass that returns. -/
theorem loopBody_ret (g : Gdk) (prims : Nat → PrimCall → Option BAT) (flag : Int)
    (s s2 : PathState) (b : Option BAT) (hinv : PathInv s)
    (h : loopBody g prims flag s = .ret b s2) :
    b = none ∧ s2.calls.length ≤ s.calls.length + 1 ∧
    (∀ inputs, Conserved inputs s → s2.unfixed.Perm (inputs ++ produced s2.calls)) := by
  obtain ⟨h1, h2, h3⟩ := hinv
  obtain ⟨ft, fj, fp, fu, fc⟩ := execute_frame prims flag (selectPair g flag s).2 s
  have hcases := loopBody_cases g prims flag s
  dsimp only at hcases
  generalize (selectPair g flag s).2 = j at *
  generalize execute prims flag j s = s1 at *
  obtain ⟨top1, joins1, pp1, pd1, b1, u1, c1⟩ := s1
  dsimp only at ft fj fp fu fc hcases
  subst ft fj fp fu
  rcases hcases with ⟨hb, s3, hr, hc3, hu3⟩ | ⟨_, _, hn, _⟩ | ⟨_, _, hn⟩
  · rw [hr] at h
    injection h with hbb hss
    subst hbb hss hb
    refine ⟨rfl, ?_, ?_⟩
    · rw [hc3]
      rcases fc with ⟨c, hc, _⟩ | ⟨hc, _⟩
      · rw [hc]; simp
      · rw [hc]; omega
    · intro inputs hcons
      unfold Conserved at hcons
      rw [hu3, hc3]
      have hp : produced c1 = produced s.calls := by
        rcases fc with ⟨c, hc, _⟩ | ⟨hc, _⟩
        · rw [hc, produced_append]; simp
        · rw [hc]
      rw [hp]
      exact ((unfixAll_perm_held s.joins s.top h2).append_left _).trans hcons
  · rw [hn] at h; cases h
  · rw [hn] at h; cases h

/-- Induction along the loop: a property `I` kept by every pass that goes on reaches,
with enough fuel, a result satisfying `Q`. -/
theorem whileLoop_induct (g : Gdk) (prims : Nat → PrimCall → Option BAT) (flag : Int)
    (I : PathState → Prop) (Q : Option BAT → PathState → Prop)
    (hnext : ∀ s s2, I s → 1 < s.top → loopBody g prims flag s = .next s2 →
      I s2 ∧ loopMeasure s2 < loopMeasure s)
    (hret : ∀ s b s2, I s → 1 < s.top → loopBody g prims flag s = .ret b s2 → Q b s2)
    (hexit : ∀ s, I s → ¬ 1 < s.top →
      Q (some (s.joins.getD 0 default)) { s with b := some (s.joins.getD 0 default) })
    (fuel : Nat) (s : PathState) (hI : I s) (hfuel : loopMeasure s ≤ fuel) :
    ∃ b s2, whileLoop g prims flag fuel s = some (b, s2) ∧ Q b s2 := by
  induction fuel generalizing s with
  | zero =>
    by_cases htop : 1 < s.top
    · exfalso
      unfold loopMeasure at hfuel
      have : 1 ≤ s.top * s.top := Nat.mul_pos (by omega) (by omega)
      omega
    · refine ⟨_, _, ?_, hexit s hI htop⟩
      unfold whileLoop
      rw [if_neg htop]
  | succ fuel ih =>
    by_cases htop : 1 < s.top
    · unfold whileLoop
      rw [if_pos htop]
      dsimp only
      rcases hbody : loopBody g prims flag s with s1 | ⟨b, s1⟩
      · obtain ⟨hI1, hm⟩ := hnext s s1 hI htop hbody
        exact ih s1 hI1 (by omega)
      · exact ⟨b, s1, rfl, hret s b s1 hI htop hbody⟩
    · refine ⟨_, _, ?_, hexit s hI htop⟩
      unfold whileLoop
      rw [if_neg htop]

theorem initState_inv (top : Nat) (joins : List BAT) (h1 : 1 ≤ top) (h2 : top ≤ joins.length) :
    PathInv (initState top joins) := by
  refine ⟨h1, h2, ?_⟩
  show top ≤ (List.replicate top false).length
  rw [List.length_replicate]

theorem initState_measure (top : Nat) (joins : List BAT) :
    loopMeasure (initState top joins) ≤ top * top + top := by
  unfold loopMeasure initState
  dsimp only
  omega

/-- The call log after a pass is the log after its `switch`, however the pass ends. -/
theorem loopBody_calls (g : Gdk) (prims : Nat → PrimCall → Option BAT) (flag : Int)
    (s s2 : PathState) (b : Option BAT)
    (h : loopBody g prims flag s = .next s2 ∨ loopBody g prims flag s = .ret b s2) :
    s2.calls = (execute prims flag (selectPair g flag s).2 s).calls := by
  have hcases := loopBody_cases g prims flag s
  dsimp only at hcases
  rcases hcases with ⟨_, s3, hr, hc3, _⟩ | ⟨_, _, hn, _⟩ | ⟨_, _, hn⟩
  · rcases h with h | h
    · rw [hr] at h; cases h
    · rw [hr] at h
      injection h with _ hss
      rw [← hss]; exact hc3
  · rcases h with h | h
    · rw [hn] at h
      injection h with h
      rw [← h]
    · rw [hn] at h; cases h
  · rcases h with h | h
    · rw [hn] at h
      injection h with h
      rw [← h]
    · rw [hn] at h; cases h

theorem loopBody_calls_prefix (g : Gdk) (prims : Nat → PrimCall → Option BAT) (flag : Int)
    (s s2 : PathState) (b : Option BAT)
    (h : loopBody g prims flag s = .next s2 ∨ loopBody g prims flag s = .ret b s2) :
    ∃ extra, s2.calls = s.calls ++ extra := by
  rw [loopBody_calls g prims flag s s2 b h]
  obtain ⟨_, _, _, _, fc⟩ := execute_frame prims flag (selectPair g flag s).2 s
  rcases fc with ⟨c, hc, _⟩ | ⟨hc, _⟩
  · exact ⟨_, hc⟩
  · exact ⟨[], by rw [hc, List.append_nil]⟩

/-- With primitives that always fail nothing is ever reduced. -/
theorem loopBody_next_null (g : Gdk) (prims : Nat → PrimCall → Option BAT) (flag : Int)
    (s s2 : PathState) (hnull : ∀ n c, prims n c = none) (hb : s.b = none)
    (h : loopBody g prims flag s = .next s2) :
    s2.b = none ∧ s2.top = s.top := by
  obtain ⟨ft, _, _, _, fc⟩ := execute_frame prims flag (selectPair g flag s).2 s
  have hb1 : (execute prims flag (selectPair g flag s).2 s).b = none := by
    rcases fc with ⟨c, _, hc, _⟩ | ⟨_, hc, _⟩
    · rw [hc]; exact hnull _ _
    · rw [hc]; exact hb
  have hcases := loopBody_cases g prims flag s
  dsimp only at hcases
  rcases hcases with ⟨_, s3, hr, _⟩ | ⟨_, _, hn, _⟩ | ⟨b, hbb, _⟩
  · rw [hr] at h; cases h
  · rw [hn] at h
    injection h with h
    rw [← h]
    exact ⟨hb1, ft⟩
  · rw [hb1] at hbb; cases hbb

theorem held_one (js : List BAT) (h : 1 ≤ js.length) :
    held js 1 = [(js.getD 0 default).batCacheid] := by
  unfold held
  cases js with
  | nil => simp at h
  | cons a rest => simp

/-- The planner, run with enough fuel from a well-shaped start, returns, and what it
has released together with what it returns is what it was given together with what
the primitives produced. -/
theorem body_conserved (g : Gdk) (prims : Nat → PrimCall → Option BAT) (fuel top : Nat)
    (joins : List BAT) (flag : Int) (hk : 1 ≤ top) (hlen : top ≤ joins.length)
    (hfuel : top * top + top ≤ fuel) :
    ∃ ret s, ALGjoinPathBody g prims fuel true top joins flag = some (ret, s) ∧
      (s.unfixed ++ (ret.map (fun b => b.batCacheid)).toList).Perm
        (held joins top ++ produced s.calls) := by
  unfold ALGjoinPathBody
  rw [if_pos rfl]
  apply whileLoop_induct g prims flag
    (fun s => PathInv s ∧ Conserved (held joins top) s ∧
      (s.b = none ∨ flag = 0 ∨ flag = 1 ∨ flag = 3))
    (fun ret s => (s.unfixed ++ (ret.map (fun b => b.batCacheid)).toList).Perm
        (held joins top ++ produced s.calls))
  · intro s s2 ⟨hinv, hcons, hb⟩ htop hbody
    obtain ⟨i1, i2, _, i4, i5⟩ := loopBody_next g prims flag s s2 hinv htop hbody
    refine ⟨⟨i1, i5 _ hb hcons, ?_⟩, i2⟩
    rcases hb with hb | hb
    · by_cases f0 : flag = 0
      · exact Or.inr (Or.inl f0)
      · by_cases f1 : flag = 1
        · exact Or.inr (Or.inr (Or.inl f1))
        · by_cases f3 : flag = 3
          · exact Or.inr (Or.inr (Or.inr f3))
          · exact Or.inl (i4 hb f0 f1 f3)
    · exact Or.inr hb
  · intro s b s2 ⟨hinv, hcons, _⟩ _ hbody
    obtain ⟨hb, _, hperm⟩ := loopBody_ret g prims flag s s2 b hinv hbody
    subst hb
    simpa using hperm _ hcons
  · intro s ⟨⟨h1, h2, _⟩, hcons, _⟩ htop
    have h1top : s.top = 1 := by omega
    unfold Conserved at hcons
    rw [h1top, held_one s.joins (by omega)] at hcons
    exact hcons
  · refine ⟨initState_inv top joins hk hlen, ?_, Or.inl rfl⟩
    unfold Conserved initState produced
    simp
  · exact le_trans (initState_measure top joins) hfuel

/-- The planner returns with enough fuel, having invoked the primitives at most
`top * top + top` times. -/
theorem body_calls_bound (g : Gdk) (prims : Nat → PrimCall → Option BAT) (fuel top : Nat)
    (joins : List BAT) (flag : Int) (hk : 1 ≤ top) (hlen : top ≤ joins.length)
    (hfuel : top * top + top ≤ fuel) :
    ∃ ret s, ALGjoinPathBody g prims fuel true top joins flag = some (ret, s) ∧
      s.calls.length ≤ top * top + top := by
  unfold ALGjoinPathBody
  rw [if_pos rfl]
  apply whileLoop_induct g prims flag
    (fun s => PathInv s ∧ s.calls.length + loopMeasure s ≤ top * top + top)
    (fun _ s => s.calls.length ≤ top * top + top)
  · intro s s2 ⟨hinv, hb⟩ htop hbody
    obtain ⟨i1, i2, i3, _, _⟩ := loopBody_next g prims flag s s2 hinv htop hbody
    exact ⟨⟨i1, by omega⟩, i2⟩
  · intro s b s2 ⟨hinv, hb⟩ htop hbody
    obtain ⟨_, hc, _⟩ := loopBody_ret g prims flag s s2 b hinv hbody
    have hpos : 1 ≤ loopMeasure s := by
      unfold loopMeasure
      have : 1 ≤ s.top * s.top := Nat.mul_pos (by omega) (by omega)
      omega
    omega
  · intro s ⟨_, hb⟩ _
    show s.calls.length ≤ top * top + top
    omega
  · refine ⟨initState_inv top joins hk hlen, ?_⟩
    have := initState_measure top joins
    have hc : (initState top joins).calls.length = 0 := rfl
    omega
  · exact le_trans (initState_measure top joins) hfuel

/-- With primitives that always fail and at least two columns, the planner returns
`NULL`, whether or not its bookkeeping allocation succeeds. -/
theorem body_all_null (g : Gdk) (prims : Nat → PrimCall → Option BAT) (fuel top : Nat)
    (joins : List BAT) (flag : Int) (zallocOk : Bool) (hnull : ∀ n c, prims n c = none)
    (hk : 2 ≤ top) (hlen : top ≤ joins.length) (hfuel : top * top + top ≤ fuel) :
    ∃ s, ALGjoinPathBody g prims fuel zallocOk top joins flag = some (none, s) := by
  unfold ALGjoinPathBody
  cases zallocOk with
  | false => exact ⟨_, rfl⟩
  | true =>
    rw [if_pos rfl]
    have key := whileLoop_induct g prims flag
      (fun s => PathInv s ∧ s.b = none ∧ 2 ≤ s.top) (fun ret _ => ret = none)
      (by
        intro s s2 ⟨hinv, hb, h2⟩ htop hbody
        obtain ⟨i1, i2, _⟩ := loopBody_next g prims flag s s2 hinv htop hbody
        obtain ⟨n1, n2⟩ := loopBody_next_null g prims flag s s2 hnull hb hbody
        exact ⟨⟨i1, n1, by omega⟩, i2⟩)
      (by
        intro s b s2 ⟨hinv, _⟩ _ hbody
        exact (loopBody_ret g prims flag s s2 b hinv hbody).1)
      (by
        intro s ⟨_, _, h2⟩ htop
        omega)
      fuel (initState top joins)
      ⟨initState_inv top joins (by omega) hlen, rfl, hk⟩
      (le_trans (initState_measure top joins) hfuel)
    obtain ⟨ret, s, hrun, hret⟩ := key
    subst hret
    exact ⟨s, hrun⟩

theorem selectPair_fold_stays (f : Nat × Nat → Nat → Nat × Nat) (acc : Nat × Nat)
    (l : List Nat) (h : ∀ i ∈ l, f acc i = acc) : l.foldl f acc = acc := by
  induction l with
  | nil => rfl
  | cons i rest ih =>
    rw [List.foldl_cons, h i (List.mem_cons_self _ _)]
    exact ih (fun k hk => h k (List.mem_cons_of_mem _ hk))

/-- When no later pair is strictly cheaper than the first, the first pair is selected. -/
theorem selectPair_eq_zero (g : Gdk) (flag : Int) (s : PathState)
    (h : ∀ i, 1 ≤ i → i + 2 ≤ s.top →
      ALGjoinCost g (s.joins.getD 0 default) (s.joins.getD 1 default) flag
        ≤ ALGjoinCost g (s.joins.getD i default) (s.joins.getD (i + 1) default) flag) :
    (selectPair g flag s).2 = 0 := by
  unfold selectPair
  rw [selectPair_fold_stays]
  intro i hi
  rw [List.mem_range'_1] at hi
  have hc := h i hi.1 (by omega)
  dsimp only
  rw [if_neg]
  intro hlt
  omega

/-- The first primitive invocation of a run in left-join mode. -/
theorem body_leftjoin_first_call (g : Gdk) (prims : Nat → PrimCall → Option BAT)
    (fuel top : Nat) (joins : List BAT) (hk : 2 ≤ top) (hlen : top ≤ joins.length)
    (hfuel : top * top + top ≤ fuel) :
    ∃ ret s, ALGjoinPathBody g prims fuel true top joins 0 = some (ret, s) ∧
      s.calls.head?.map Prod.fst
        = some (leftJoinCall joins (selectPair g 0 (initState top joins)).2) := by
  have hinv := initState_inv top joins (by omega) hlen
  have hm := initState_measure top joins
  have hmin : ∀ a b : Nat, (if a < b then a else b) = min a b := by
    intro a b
    by_cases hab : a < b
    · rw [if_pos hab, Nat.min_eq_left (le_of_lt hab)]
    · rw [if_neg hab, Nat.min_eq_right (by omega)]
  have hexec0 : ∀ j, (execute prims 0 j (initState top joins)).calls.head?.map Prod.fst
      = some (leftJoinCall joins j) := by
    intro j
    unfold execute leftJoinCall invoke
    simp only [if_true]
    rw [hmin]
    by_cases hj : j = 0
    · subst hj
      rfl
    · rw [if_neg hj, if_neg hj]
      rfl
  have hexec := hexec0 (selectPair g 0 (initState top joins)).2
  obtain ⟨f, hf⟩ : ∃ f, fuel = f + 1 := ⟨fuel - 1, by
    have : 1 ≤ top * top := Nat.mul_pos (by omega) (by omega)
    omega⟩
  subst hf
  unfold ALGjoinPathBody
  rw [if_pos rfl]
  unfold whileLoop
  have htop : 1 < (initState top joins).top := hk
  rw [if_pos htop]
  dsimp only
  rcases hbody : loopBody g prims 0 (initState top joins) with s1 | ⟨b, s1⟩
  · have hc := loopBody_calls g prims 0 _ s1 none (Or.inl hbody)
    obtain ⟨i1, i2, _⟩ := loopBody_next g prims 0 _ s1 hinv htop hbody
    dsimp only
    apply whileLoop_induct g prims 0
      (fun s => PathInv s ∧ s.calls.head?.map Prod.fst
        = some (leftJoinCall joins (selectPair g 0 (initState top joins)).2))
      (fun _ s => s.calls.head?.map Prod.fst
        = some (leftJoinCall joins (selectPair g 0 (initState top joins)).2))
    · intro s s2 ⟨hi, hh⟩ ht hb
      obtain ⟨j1, j2, _⟩ := loopBody_next g prims 0 s s2 hi ht hb
      obtain ⟨extra, he⟩ := loopBody_calls_prefix g prims 0 s s2 none (Or.inl hb)
      refine ⟨⟨j1, ?_⟩, j2⟩
      rw [he]
      cases hcs : s.calls with
      | nil => rw [hcs] at hh; simp at hh
      | cons c cs => rw [hcs] at hh; simpa using hh
    · intro s b s2 ⟨hi, hh⟩ _ hb
      obtain ⟨extra, he⟩ := loopBody_calls_prefix g prims 0 s s2 b (Or.inr hb)
      show s2.calls.head?.map Prod.fst = _
      rw [he]
      cases hcs : s.calls with
      | nil => rw [hcs] at hh; simp at hh
      | cons c cs => rw [hcs] at hh; simpa using hh
    · intro s ⟨_, hh⟩ _
      exact hh
    · exact ⟨i1, by rw [hc]; exact hexec⟩
    · omega
  · have hc := loopBody_calls g prims 0 _ s1 b (Or.inr hbody)
    exact ⟨b, s1, rfl, by rw [hc]; exact hexec⟩

/-! ## Lemmas: the acquisition loop of the dispatcher -/

theorem typeMismatch_iff (g : Gdk) (a b : BAT) :
    typeMismatch g a b = true ↔ ¬ compatible g a b := by
  unfold typeMismatch compatible
  simp only [Bool.and_eq_true, Bool.not_eq_true', beq_eq_false_iff_ne, ne_eq,
    Bool.and_eq_false_imp, beq_iff_eq, not_or, not_and]
  exact and_assoc

theorem mismatchAt_not_ok (g : Gdk) (d : Int → Option BAT) (args : List Int) (i : Nat)
    (h : mismatchAt g d args i) : ¬ noProblemAt g d args i := by
  obtain ⟨h1, a, b, ha, hb, hc⟩ := h
  rintro ⟨b2, hb2, hrest⟩
  obtain ⟨a2, ha2, hc2⟩ := hrest h1
  rw [hb] at hb2
  rw [ha] at ha2
  cases hb2
  cases ha2
  exact hc hc2

theorem none_not_ok (g : Gdk) (d : Int → Option BAT) (args : List Int) (i : Nat)
    (h : column d args i = none) : ¬ noProblemAt g d args i := by
  rintro ⟨b, hb, _⟩
  rw [h] at hb
  cases hb

/-- Two first problems are the same problem. -/
theorem first_problem_unique (P : Nat → Prop) (i q : Nat)
    (hi : ∀ m, m < i → P m) (hni : ¬ P i) (hq : ∀ m, m < q → P m) (hnq : ¬ P q) : i = q := by
  rcases Nat.lt_trichotomy i q with h | h | h
  · exact absurd (hq i h) hni
  · exact h
  · exact absurd (hi q h) hnq

/-- The acquisition loop, started behind a prefix `pre` of the request that raised no
problem and whose columns are in `joins`, stops at the first problem of the request and
reports its kind. -/
theorem acquireLoop_char (g : Gdk) (d : Int → Option BAT) (args : List Int) :
    ∀ (rest pre : List Int) (joins : List BAT) (fixed : List Int),
      args = pre ++ rest → joins.length = pre.length →
      (∀ m, m < pre.length → column d args m = joins[m]?) →
      (∀ m, m < pre.length → noProblemAt g d args m) →
      ((acquireLoop g d rest joins fixed).error = some .SEMANTIC_TYPE_MISMATCH ↔
        ∃ i, i < args.length ∧ (∀ m, m < i → noProblemAt g d args m) ∧ mismatchAt g d args i) ∧
      ((acquireLoop g d rest joins fixed).error = some .INTERNAL_BAT_ACCESS ↔
        ∃ i, i < args.length ∧ (∀ m, m < i → noProblemAt g d args m) ∧
          column d args i = none) ∧
      ((acquireLoop g d rest joins fixed).error = none ↔
        ∀ m, m < args.length → noProblemAt g d args m) := by
  intro rest
  induction rest with
  | nil =>
    intro pre joins fixed hargs hlen hcol hok
    have hal : args.length = pre.length := by rw [hargs]; simp
    unfold acquireLoop
    refine ⟨⟨fun h => (by cases h), ?_⟩, ⟨fun h => (by cases h), ?_⟩, ⟨fun _ => ?_, fun _ => rfl⟩⟩
    · rintro ⟨i, hi, _, hmis⟩
      exact absurd (hok i (by omega)) (mismatchAt_not_ok g d args i hmis)
    · rintro ⟨i, hi, _, hnone⟩
      exact absurd (hok i (by omega)) (none_not_ok g d args i hnone)
    · intro m hm
      exact hok m (by omega)
  | cons bid rest ih =>
    intro pre joins fixed hargs hlen hcol hok
    have hp : pre.length < args.length := by rw [hargs]; simp
    have hbid : args[pre.length]? = some bid := by
      rw [hargs, List.getElem?_append_right (le_refl _)]
      simp
    have hcolp : column d args pre.length = d bid := by
      unfold column
      rw [hbid]
      rfl
    unfold acquireLoop
    rcases hd : d bid with _ | b
    · -- input `pre.length` cannot be acquired
      have hnone : column d args pre.length = none := by rw [hcolp, hd]
      have hbad := none_not_ok g d args pre.length hnone
      dsimp only
      refine ⟨⟨fun h => (by cases h), ?_⟩, ⟨fun _ => ⟨pre.length, hp, hok, hnone⟩, fun _ => rfl⟩,
        ⟨fun h => (by cases h), fun h => absurd (h pre.length hp) hbad⟩⟩
      rintro ⟨i, _, hi, hmis⟩
      have := first_problem_unique _ i pre.length hi (mismatchAt_not_ok g d args i hmis) hok hbad
      subst this
      obtain ⟨_, a, b, _, hb, _⟩ := hmis
      rw [hnone] at hb
      cases hb
    · have hsome : column d args pre.length = some b := by rw [hcolp, hd]
      dsimp only
      by_cases hmm : joins.length ≠ 0 ∧ typeMismatch g (joins.getD (joins.length - 1) default) b = true
      · -- input `pre.length` does not fit behind its predecessor
        rw [if_pos hmm]
        dsimp only
        have hp1 : 1 ≤ pre.length := by omega
        have hprev : column d args (pre.length - 1)
            = some (joins.getD (joins.length - 1) default) := by
          rw [hcol _ (by omega), hlen]
          have hl : pre.length - 1 < joins.length := by omega
          simp [List.getElem?_eq_getElem hl]
        have hmis : mismatchAt g d args pre.length :=
          ⟨hp1, _, b, hprev, hsome, (typeMismatch_iff g _ b).mp hmm.2⟩
        have hbad := mismatchAt_not_ok g d args pre.length hmis
        refine ⟨⟨fun _ => ⟨pre.length, hp, hok, hmis⟩, fun _ => rfl⟩, ⟨fun h => (by cases h), ?_⟩,
          ⟨fun h => (by cases h), fun h => absurd (h pre.length hp) hbad⟩⟩
        rintro ⟨i, _, hi, hnone⟩
        have := first_problem_unique _ i pre.length hi (none_not_ok g d args i hnone) hok hbad
        subst this
        rw [hnone] at hsome
        cases hsome
      · -- input `pre.length` is accepted
        rw [if_neg hmm]
        have hokp : noProblemAt g d args pre.length := by
          refine ⟨b, hsome, fun hp1 => ?_⟩
          have hl : pre.length - 1 < joins.length := by omega
          refine ⟨joins.getD (joins.length - 1) default, ?_, ?_⟩
          · rw [hcol _ (by omega), hlen]
            simp [List.getElem?_eq_getElem hl]
          · by_contra hc
            exact hmm ⟨by omega, (typeMismatch_iff g _ b).mpr hc⟩
        apply ih (pre ++ [bid]) (joins ++ [b]) (fixed ++ [bid])
        · rw [hargs]; simp
        · simp [hlen]
        · intro m hm
          rw [List.length_append, List.length_singleton] at hm
          by_cases hmp : m < pre.length
          · rw [hcol m hmp, List.getElem?_append_left (by omega)]
          · have hme : m = pre.length := by omega
            subst hme
            rw [hsome, List.getElem?_append_right (by omega), hlen]
            simp
        · intro m hm
          rw [List.length_append, List.length_singleton] at hm
          by_cases hmp : m < pre.length
          · exact hok m hmp
          · have hme : m = pre.length := by omega
            subst hme
            exact hokp

/-- A request that passes the acquisition loop fills one slot per input. -/
theorem acquireLoop_length (g : Gdk) (d : Int → Option BAT) :
    ∀ (rest : List Int) (joins : List BAT) (fixed : List Int),
      (acquireLoop g d rest joins fixed).error = none →
      (acquireLoop g d rest joins fixed).joins.length = joins.length + rest.length := by
  intro rest
  induction rest with
  | nil => intro joins fixed _; rfl
  | cons bid rest ih =>
    intro joins fixed h
    unfold acquireLoop at h ⊢
    rcases hd : d bid with _ | b
    · rw [hd] at h; cases h
    · rw [hd] at h
      dsimp only at h ⊢
      by_cases hmm : joins.length ≠ 0 ∧ typeMismatch g (joins.getD (joins.length - 1) default) b = true
      · rw [if_pos hmm] at h; cases h
      · rw [if_neg hmm] at h ⊢
        rw [ih _ _ h]
        simp
        omega

/-- An exception other than `INTERNAL_OBJ_CREATE` comes out of `ALGjoinPath` (its array
allocated) exactly when the acquisition loop raised it. -/
theorem ALGjoinPath_msg_iff (g : Gdk) (d : Int → Option BAT)
    (BATnew : Int → Int → Nat → Option BAT) (prims : Nat → PrimCall → Option BAT)
    (fuel : Nat) (zallocOk : Bool) (fcn : String) (args : List Int) (err : MalError)
    (herr : err ≠ .INTERNAL_OBJ_CREATE) :
    (∃ r, ALGjoinPath g d BATnew prims fuel true zallocOk fcn args = some r ∧
        r.msg = some err) ↔ (acquireLoop g d args [] []).error = some err := by
  have hpub : ∀ (b : Option BAT) (f u : List Int) (c : List (PrimCall × Option BAT))
      (rt : Route), (publish b f u c rt).msg ≠ some err := by
    intro b f u c rt
    unfold publish
    cases b with
    | none => intro h; injection h with h; exact herr h.symm
    | some bn => intro h; cases h
  unfold ALGjoinPath
  simp only [Bool.not_true, Bool.false_eq_true, if_false]
  rcases hacq : (acquireLoop g d args [] []).error with _ | e
  · simp only [chainFlag, Bool.false_eq_true, false_and, if_false]
    constructor
    · rintro ⟨r, hr, hmsg⟩
      exfalso
      split at hr
      · rw [Option.map_eq_some'] at hr
        obtain ⟨res, _, hres⟩ := hr
        rw [← hres] at hmsg
        exact hpub _ _ _ _ _ hmsg
      · split at hr
        · rw [Option.map_eq_some'] at hr
          obtain ⟨res, _, hres⟩ := hr
          rw [← hres] at hmsg
          exact hpub _ _ _ _ _ hmsg
        · rw [Option.map_eq_some'] at hr
          obtain ⟨res, _, hres⟩ := hr
          rw [← hres] at hmsg
          exact hpub _ _ _ _ _ hmsg
    · intro h; cases h
  · dsimp only
    constructor
    · rintro ⟨r, hr, hmsg⟩
      injection hr with hr
      rw [← hr] at hmsg
      exact hmsg
    · intro h
      exact ⟨_, rfl, h⟩

/-! ## The claims -/

/-- C1: whenever the exact product of the two counts is below `BUN_MAX`, `ALGjoinCost`
returns the Phase-A bound of the specification divided by the divisor of the first row
of the 14-row table that fires, rows 3, 5, 8, 11 and 13 being skipped for `flag = 0`. -/
theorem C1_cost_is_first_matching_rule (g : Gdk) (l r : BAT) (flag : Int)
    (hmax : g.BUN_MAX < 2 ^ g.bunBits) (hprod : BATcount l * BATcount r < g.BUN_MAX) :
    ALGjoinCost g l r flag = specPhaseA l r / specDivisor l r flag :=
  ALGjoinCost_eq_spec_aux g l r flag hmax hprod

theorem C1_cost_is_first_matching_rule_witness :
    gdk64.BUN_MAX < 2 ^ gdk64.bunBits ∧
    BATcount denseTail * BATcount sortedHead < gdk64.BUN_MAX ∧
    ALGjoinCost gdk64 denseTail sortedHead 0
      = specPhaseA denseTail sortedHead / specDivisor denseTail sortedHead 0 :=
  ⟨by decide, by decide,
    C1_cost_is_first_matching_rule gdk64 denseTail sortedHead 0 (by decide) (by decide)⟩

/-- C2, as stated, fails: for an empty left operand with a unique tail and a right
operand of 5000 rows the estimate in full-join mode is 1666, above the saturating
product 0. -/
theorem C2_cost_bound_counterexample :
    ¬ (ALGjoinCost gdk64 p5Left p5Right 1
        ≤ saturating_mul gdk64 (BATcount p5Left) (BATcount p5Right)) := by
  decide

/-- C2, amended: for columns whose counts are at most `BUN_MAX`, the estimate is at most
the saturating product of the counts, provided the left column is not empty when only
`tail_key(L)` holds and the right column is not empty when only `head_key(R)` holds. -/
theorem C2_cost_bound_nonempty (g : Gdk) (l r : BAT) (flag : Int)
    (hl : BATcount l ≤ g.BUN_MAX) (hr : BATcount r ≤ g.BUN_MAX)
    (hlk : l.tkey = true → r.hkey = false → 1 ≤ BATcount l)
    (hrk : l.tkey = false → r.hkey = true → 1 ≤ BATcount r) :
    ALGjoinCost g l r flag ≤ saturating_mul g (BATcount l) (BATcount r) :=
  le_trans (ALGjoinCost_le_logical g l r flag) (ALGjoinCost_logical_le_sat g l r hl hr hlk hrk)

theorem C2_cost_bound_nonempty_witness :
    BATcount denseTail ≤ gdk64.BUN_MAX ∧ BATcount sortedHead ≤ gdk64.BUN_MAX ∧
    (denseTail.tkey = true → sortedHead.hkey = false → 1 ≤ BATcount denseTail) ∧
    (denseTail.tkey = false → sortedHead.hkey = true → 1 ≤ BATcount sortedHead) ∧
    ALGjoinCost gdk64 denseTail sortedHead 1
      ≤ saturating_mul gdk64 (BATcount denseTail) (BATcount sortedHead) :=
  ⟨by decide, by decide, by decide, by decide,
    C2_cost_bound_nonempty gdk64 denseTail sortedHead 1 (by decide) (by decide) (by decide)
      (by decide)⟩

/-- C3, the code at the failing input: for two columns of `2 ^ 32` rows without key
flags the 64-bit product wraps to 0 before it is compared with `BUN_MAX`, so the Phase-A
cost and the returned estimate are 0, while the saturating product is `BUN_MAX`. -/
theorem C3_wrapped_product_not_saturated :
    BATcount (wideBAT 1) ≤ gdk64.BUN_MAX ∧
    ALGjoinCost_logical gdk64 (wideBAT 1) (wideBAT 2) = 0 ∧
    ALGjoinCost gdk64 (wideBAT 1) (wideBAT 2) 1 = 0 ∧
    min (BATcount (wideBAT 1) * BATcount (wideBAT 2)) gdk64.BUN_MAX = gdk64.BUN_MAX := by
  decide

/-- C4: for columns whose counts are at most `BUN_MAX`, the estimate is at most
`BUN_MAX`, in every mode. -/
theorem C4_cost_at_most_BUN_MAX (g : Gdk) (l r : BAT) (flag : Int)
    (hl : BATcount l ≤ g.BUN_MAX) (hr : BATcount r ≤ g.BUN_MAX) :
    ALGjoinCost g l r flag ≤ g.BUN_MAX :=
  le_trans (ALGjoinCost_le_logical g l r flag) (ALGjoinCost_logical_le_max g l r hl hr)

theorem C4_cost_at_most_BUN_MAX_witness :
    BATcount (wideBAT 1) ≤ gdk64.BUN_MAX ∧ BATcount (wideBAT 2) ≤ gdk64.BUN_MAX ∧
    ALGjoinCost gdk64 (wideBAT 1) (wideBAT 2) 3 ≤ gdk64.BUN_MAX :=
  ⟨by decide, by decide,
    C4_cost_at_most_BUN_MAX gdk64 (wideBAT 1) (wideBAT 2) 3 (by decide) (by decide)⟩

/-- C5: a run of `ALGjoinPathBody` whose bookkeeping allocation succeeds returns, for
every `top ≥ 1`, every mode and every behaviour of the primitives, and on return the
references released (`unfixed`) together with the returned one are, counted with
multiplicity, exactly the input references together with the references the primitives
produced.  Per column `x`: the number of releases of `x`, plus one if `x` is the returned
column, is the number of input references to `x` plus the number of results `x` of the
primitives; so a reference that is not returned is released exactly once and the
returned one is not released. -/
theorem C5_planner_reference_conservation (g : Gdk) (prims : Nat → PrimCall → Option BAT)
    (fuel top : Nat) (joins : List BAT) (flag : Int) (hk : 1 ≤ top)
    (hlen : top ≤ joins.length) (hfuel : top * top + top ≤ fuel) :
    ∃ ret s, ALGjoinPathBody g prims fuel true top joins flag = some (ret, s) ∧
      (s.unfixed ++ (ret.map (fun b => b.batCacheid)).toList).Perm
        (held joins top ++ produced s.calls) ∧
      ∀ x, s.unfixed.count x + (if ret.map (fun b => b.batCacheid) = some x then 1 else 0)
        = (held joins top).count x + (produced s.calls).count x := by
  obtain ⟨ret, s, hrun, hperm⟩ := body_conserved g prims fuel top joins flag hk hlen hfuel
  refine ⟨ret, s, hrun, hperm, ?_⟩
  intro x
  have hc := hperm.count_eq x
  rw [List.count_append, List.count_append] at hc
  rw [← hc]
  cases ret with
  | none => simp
  | some b =>
    simp only [Option.map_some', Option.toList_some, List.count_cons, List.count_nil,
      Option.some.injEq, beq_iff_eq]
    omega

theorem C5_planner_reference_conservation_witness :
    1 ≤ 3 ∧ 3 ≤ path3.length ∧ 3 * 3 + 3 ≤ 12 ∧
    ∃ ret s, ALGjoinPathBody gdk64 freshPrims 12 true 3 path3 1 = some (ret, s) ∧
      (s.unfixed ++ (ret.map (fun b => b.batCacheid)).toList).Perm
        (held path3 3 ++ produced s.calls) ∧
      ∀ x, s.unfixed.count x + (if ret.map (fun b => b.batCacheid) = some x then 1 else 0)
        = (held path3 3).count x + (produced s.calls).count x :=
  ⟨by decide, by decide, by decide,
    C5_planner_reference_conservation gdk64 freshPrims 12 3 path3 1 (by decide) (by decide)
      (by decide)⟩

/-- C6, the code at the failing input: for the request `[1, 2]` in which column 1 has an
`int` tail and column 2 an `oid` head, `ALGjoinPath` throws `SEMANTIC_TYPE_MISMATCH`
having acquired the references of columns 1 and 2 and released only that of column 1. -/
theorem C6_mismatching_column_not_released :
    ALGjoinPath gdk64 mismatchBBP noBATnew freshPrims 6 true true "joinPath" [1, 2]
      = some { msg := some .SEMANTIC_TYPE_MISMATCH, r := none, fixed := [1, 2],
               unfixed := [1], kept := [], calls := [], route := .notReached } := by
  decide

/-- C7: `ALGjoinPath` (its array allocated) throws `SEMANTIC_TYPE_MISMATCH` exactly when
the first input that raises a problem can be acquired and is incompatible with the
column before it, throws `INTERNAL_BAT_ACCESS` exactly when the first input that raises
a problem cannot be acquired, and its acquisition loop ends without exception exactly
when every input can be acquired and every adjacent pair, the last included, is
compatible. -/
theorem C7_validation_outcome (g : Gdk) (d : Int → Option BAT)
    (BATnew : Int → Int → Nat → Option BAT) (prims : Nat → PrimCall → Option BAT)
    (fuel : Nat) (zallocOk : Bool) (fcn : String) (args : List Int) :
    ((∃ r, ALGjoinPath g d BATnew prims fuel true zallocOk fcn args = some r ∧
        r.msg = some .SEMANTIC_TYPE_MISMATCH) ↔
      ∃ i, i < args.length ∧ (∀ m, m < i → noProblemAt g d args m) ∧ mismatchAt g d args i) ∧
    ((∃ r, ALGjoinPath g d BATnew prims fuel true zallocOk fcn args = some r ∧
        r.msg = some .INTERNAL_BAT_ACCESS) ↔
      ∃ i, i < args.length ∧ (∀ m, m < i → noProblemAt g d args m) ∧
        column d args i = none) ∧
    ((acquireLoop g d args [] []).error = none ↔
      ∀ m, m < args.length → noProblemAt g d args m) := by
  obtain ⟨h1, h2, h3⟩ := acquireLoop_char g d args args [] [] [] rfl rfl
    (fun m hm => absurd hm (Nat.not_lt_zero m)) (fun m hm => absurd hm (Nat.not_lt_zero m))
  refine ⟨?_, ?_, h3⟩
  · rw [ALGjoinPath_msg_iff g d BATnew prims fuel zallocOk fcn args _ (by decide)]
    exact h1
  · rw [ALGjoinPath_msg_iff g d BATnew prims fuel zallocOk fcn args _ (by decide)]
    exact h2

/-- C8: for a request of at least two columns that passes the acquisition loop, if every
invocation of a primitive returns `NULL`, then `ALGjoinPathBody` returns `NULL` in every
mode and `ALGjoinPath` throws `INTERNAL_OBJ_CREATE`, whatever the function name. -/
theorem C8_all_primitives_fail (g : Gdk) (d : Int → Option BAT)
    (BATnew : Int → Int → Nat → Option BAT) (prims : Nat → PrimCall → Option BAT)
    (fuel : Nat) (zallocOk : Bool) (fcn : String) (args : List Int)
    (hnull : ∀ n c, prims n c = none)
    (hval : (acquireLoop g d args [] []).error = none) (hk : 2 ≤ args.length)
    (hfuel : args.length * args.length + args.length ≤ fuel) :
    (∀ flag : Int, ∃ s, ALGjoinPathBody g prims fuel zallocOk args.length
        (acquireLoop g d args [] []).joins flag = some (none, s)) ∧
    ∃ r, ALGjoinPath g d BATnew prims fuel true zallocOk fcn args = some r ∧
      r.msg = some .INTERNAL_OBJ_CREATE := by
  have hlen : (acquireLoop g d args [] []).joins.length = args.length := by
    rw [acquireLoop_length g d args [] [] hval]
    simp
  have hbody : ∀ flag : Int, ∃ s, ALGjoinPathBody g prims fuel zallocOk args.length
      (acquireLoop g d args [] []).joins flag = some (none, s) := fun flag =>
    body_all_null g prims fuel args.length _ flag zallocOk hnull hk (by omega) hfuel
  refine ⟨hbody, ?_⟩
  unfold ALGjoinPath
  simp only [Bool.not_true, Bool.false_eq_true, if_false, hval, chainFlag, false_and, hlen]
  obtain ⟨s1, hs1⟩ := hbody 1
  obtain ⟨s0, hs0⟩ := hbody 0
  obtain ⟨s3, hs3⟩ := hbody 3
  rw [hs1, hs0, hs3]
  split
  · exact ⟨_, rfl, rfl⟩
  · split
    · exact ⟨_, rfl, rfl⟩
    · exact ⟨_, rfl, rfl⟩

theorem C8_all_primitives_fail_witness :
    (∀ n c, allNull n c = none) ∧ (acquireLoop gdk64 okBBP [1, 2] [] []).error = none ∧
    2 ≤ [(1 : Int), 2].length ∧
    [(1 : Int), 2].length * [(1 : Int), 2].length + [(1 : Int), 2].length ≤ 6 ∧
    ((∀ flag : Int, ∃ s, ALGjoinPathBody gdk64 allNull 6 true [(1 : Int), 2].length
        (acquireLoop gdk64 okBBP [1, 2] [] []).joins flag = some (none, s)) ∧
    ∃ r, ALGjoinPath gdk64 okBBP noBATnew allNull 6 true true "projectionPath" [1, 2] = some r ∧
      r.msg = some .INTERNAL_OBJ_CREATE) :=
  ⟨fun _ _ => rfl, by decide, by decide, by decide,
    C8_all_primitives_fail gdk64 okBBP noBATnew allNull 6 true "projectionPath" [1, 2]
      (fun _ _ => rfl) (by decide) (by decide) (by decide)⟩

/-- C9: for every `top ≥ 1`, every mode and every behaviour of the primitives, the loop
of `ALGjoinPathBody` ends within `top * top + top` passes, and the primitives are invoked
at most `top + 2 * top ^ 2` times in the run. -/
theorem C9_planner_terminates_with_bounded_calls (g : Gdk)
    (prims : Nat → PrimCall → Option BAT) (fuel top : Nat) (joins : List BAT) (flag : Int)
    (hk : 1 ≤ top) (hlen : top ≤ joins.length) (hfuel : top * top + top ≤ fuel) :
    ∃ ret s, ALGjoinPathBody g prims fuel true top joins flag = some (ret, s) ∧
      s.calls.length ≤ top + 2 * top ^ 2 := by
  obtain ⟨ret, s, hrun, hb⟩ := body_calls_bound g prims fuel top joins flag hk hlen hfuel
  refine ⟨ret, s, hrun, ?_⟩
  have e : top ^ 2 = top * top := by ring
  rw [e]
  omega

theorem C9_planner_terminates_with_bounded_calls_witness :
    1 ≤ 3 ∧ 3 ≤ path3.length ∧ 3 * 3 + 3 ≤ 12 ∧
    ∃ ret s, ALGjoinPathBody gdk64 allNull 12 true 3 path3 0 = some (ret, s) ∧
      s.calls.length ≤ 3 + 2 * 3 ^ 2 :=
  ⟨by decide, by decide, by decide,
    C9_planner_terminates_with_bounded_calls gdk64 allNull 12 3 path3 0 (by decide)
      (by decide) (by decide)⟩

/-- C10, as stated, fails: in left-join mode on three columns whose second pair has the
smaller estimate, the selected index is 1 and the first invocation is the general join
on `(J[1], J[2])`, not the left join on `(J[0], J[1])`. -/
theorem C10_leftjoin_first_pair_counterexample :
    (selectPair gdk64 0 (initState 3 ljPath)).2 = 1 ∧
    (ALGjoinPathBody gdk64 freshPrims 12 true 3 ljPath 0).map
        (fun r => r.2.calls.head?.map Prod.fst)
      = some (some (.BATjoin (ljPath.getD 1 default) (ljPath.getD 2 default) 10)) ∧
    (ALGjoinPathBody gdk64 freshPrims 12 true 3 ljPath 0).map
        (fun r => r.2.calls.head?.map Prod.fst)
      ≠ some (some (.BATleftjoin (ljPath.getD 0 default) (ljPath.getD 1 default)
          (BATcount (ljPath.getD 0 default)))) := by
  decide

/-- C10, amended: in left-join mode with at least two columns, the first invocation is
made on the pair `j*` that the cost estimates select: the left-join primitive on
`(J[0], J[1])` with hint `count(J[0])` when `j* = 0`, the general join on
`(J[j*], J[j*+1])` otherwise; and `j* = 0` whenever no later adjacent pair has a strictly
smaller estimate than the first pair. -/
theorem C10_leftjoin_first_call (g : Gdk) (prims : Nat → PrimCall → Option BAT)
    (fuel top : Nat) (joins : List BAT) (hk : 2 ≤ top) (hlen : top ≤ joins.length)
    (hfuel : top * top + top ≤ fuel) :
    (∃ ret s, ALGjoinPathBody g prims fuel true top joins 0 = some (ret, s) ∧
      s.calls.head?.map Prod.fst
        = some (leftJoinCall joins (selectPair g 0 (initState top joins)).2)) ∧
    ((∀ i, 1 ≤ i → i + 2 ≤ top →
        ALGjoinCost g (joins.getD 0 default) (joins.getD 1 default) 0
          ≤ ALGjoinCost g (joins.getD i default) (joins.getD (i + 1) default) 0) →
      (selectPair g 0 (initState top joins)).2 = 0) :=
  ⟨body_leftjoin_first_call g prims fuel top joins hk hlen hfuel,
    fun h => selectPair_eq_zero g 0 (initState top joins) h⟩

theorem C10_leftjoin_first_call_witness :
    2 ≤ 3 ∧ 3 ≤ path3.length ∧ 3 * 3 + 3 ≤ 12 ∧
    (∃ ret s, ALGjoinPathBody gdk64 freshPrims 12 true 3 path3 0 = some (ret, s) ∧
      s.calls.head?.map Prod.fst
        = some (leftJoinCall path3 (selectPair gdk64 0 (initState 3 path3)).2)) ∧
    (∀ i, 1 ≤ i → i + 2 ≤ 3 →
        ALGjoinCost gdk64 (path3.getD 0 default) (path3.getD 1 default) 0
          ≤ ALGjoinCost gdk64 (path3.getD i default) (path3.getD (i + 1) default) 0) ∧
    (selectPair gdk64 0 (initState 3 path3)).2 = 0 :=
  have hcost : ∀ i, 1 ≤ i → i + 2 ≤ 3 →
      ALGjoinCost gdk64 (path3.getD 0 default) (path3.getD 1 default) 0
        ≤ ALGjoinCost gdk64 (path3.getD i default) (path3.getD (i + 1) default) 0 := by
    intro i h1 h2
    have hi : i = 1 := by omega
    subst hi
    decide
  ⟨by decide, by decide, by decide,
    (C10_leftjoin_first_call gdk64 freshPrims 12 3 path3 (by decide) (by decide)
      (by decide)).1,
    hcost,
    (C10_leftjoin_first_call gdk64 freshPrims 12 3 path3 (by decide) (by decide)
      (by decide)).2 hcost⟩

/-! ## Lemmas: the cost model across modes -/

/-- The cascade of lines 91-146 with the left-join rows enabled (`flag != 0`) never
yields more than with these rows suppressed: a suppressed row only hands over to a row
further down, whose divisor is not larger. -/
theorem cascade_mode_le (A : Nat) (td hd ts hs sl sr : Bool) :
    (if (td && hd) = true then A / 7
      else if (ts && hd) = true then A / 6
      else if (td && hs && true) = true then A / 6
      else if (hd && sr) = true then A / 5
      else if (td && sl && true) = true then A / 5
      else if (ts && hs) = true then A / 4
      else if (hs && sr) = true then A / 3
      else if (ts && sl && true) = true then A / 3
      else if ((hs && sl) || (ts && sr)) = true then A / 3
      else if sr = true then A / 3
      else if (sl && true) = true then A / 3
      else if hd = true then A / 2
      else if (td && true) = true then A / 2
      else A / 1)
    ≤ (if (td && hd) = true then A / 7
      else if (ts && hd) = true then A / 6
      else if (td && hs && false) = true then A / 6
      else if (hd && sr) = true then A / 5
      else if (td && sl && false) = true then A / 5
      else if (ts && hs) = true then A / 4
      else if (hs && sr) = true then A / 3
      else if (ts && sl && false) = true then A / 3
      else if ((hs && sl) || (ts && sr)) = true then A / 3
      else if sr = true then A / 3
      else if (sl && false) = true then A / 3
      else if hd = true then A / 2
      else if (td && false) = true then A / 2
      else A / 1) := by
  cases td <;> cases hd <;> cases ts <;> cases hs <;> cases sl <;> cases sr <;>
    first
      | exact le_refl _
      | exact Nat.div_le_div_left (by decide) (by decide)

theorem bne_zero_of_ne (f : Int) (hf : f ≠ 0) : (f != 0) = true := by
  simp [bne, hf]

/-- The estimate depends on `flag` only through the test `flag != 0`. -/
theorem ALGjoinCost_nonzero_flag (g : Gdk) (l r : BAT) (f : Int) (hf : f ≠ 0) :
    ALGjoinCost g l r f = ALGjoinCost g l r 1 := by
  unfold ALGjoinCost
  rw [bne_zero_of_ne f hf, bne_zero_of_ne 1 (by decide)]

theorem ALGjoinCost_leftjoin_ge (g : Gdk) (l r : BAT) :
    ALGjoinCost g l r 1 ≤ ALGjoinCost g l r 0 := by
  have h0 : ((0 : Int) != 0) = false := by decide
  unfold ALGjoinCost
  rw [bne_zero_of_ne 1 (by decide), h0]
  exact cascade_mode_le (ALGjoinCost_logical g l r) (BATtdense l) (BAThdense r) (BATtordered l)
    (BAThordered r) (decide (BATcount l ≤ SMALL_OPERAND)) (decide (BATcount r ≤ SMALL_OPERAND))

/-! ## Lemmas: selection and execution of one step -/

/-- The running minimum with strict replacement ends at the earliest index at which the
cost is least. -/
theorem argmin_fold (c : Nat → Nat) (n : Nat) :
    ((List.range' 1 n).foldl
        (fun (acc : Nat × Nat) i => if c i < acc.1 then (c i, i) else acc) (c 0, 0)).1
      = c ((List.range' 1 n).foldl
        (fun (acc : Nat × Nat) i => if c i < acc.1 then (c i, i) else acc) (c 0, 0)).2 ∧
    ((List.range' 1 n).foldl
        (fun (acc : Nat × Nat) i => if c i < acc.1 then (c i, i) else acc) (c 0, 0)).2 ≤ n ∧
    (∀ i, i ≤ n → c ((List.range' 1 n).foldl
        (fun (acc : Nat × Nat) i => if c i < acc.1 then (c i, i) else acc) (c 0, 0)).2 ≤ c i) ∧
    (∀ i, i < ((List.range' 1 n).foldl
        (fun (acc : Nat × Nat) i => if c i < acc.1 then (c i, i) else acc) (c 0, 0)).2 →
      c ((List.range' 1 n).foldl
        (fun (acc : Nat × Nat) i => if c i < acc.1 then (c i, i) else acc) (c 0, 0)).2 < c i) := by
  induction n with
  | zero =>
    refine ⟨rfl, le_refl _, ?_, ?_⟩
    · intro i hi
      have : i = 0 := by omega
      subst this
      exact le_refl _
    · intro i hi
      exact absurd hi (Nat.not_lt_zero i)
  | succ n ih =>
    rw [List.range'_concat, List.foldl_append]
    generalize (List.range' 1 n).foldl
      (fun (acc : Nat × Nat) i => if c i < acc.1 then (c i, i) else acc) (c 0, 0) = acc at ih ⊢
    obtain ⟨h1, h2, h3, h4⟩ := ih
    simp only [List.foldl_cons, List.foldl_nil, Nat.one_mul]
    by_cases hlt : c (1 + n) < acc.1
    · rw [if_pos hlt]
      rw [h1] at hlt
      refine ⟨rfl, by show 1 + n ≤ n + 1; omega, ?_, ?_⟩
      · intro i hi
        show c (1 + n) ≤ c i
        by_cases hin : i ≤ n
        · exact le_of_lt (lt_of_lt_of_le hlt (h3 i hin))
        · have : i = 1 + n := by omega
          rw [this]
      · intro i hi
        show c (1 + n) < c i
        have hi' : i < 1 + n := hi
        exact lt_of_lt_of_le hlt (h3 i (by omega))
    · rw [if_neg hlt]
      rw [h1] at hlt
      refine ⟨h1, by omega, ?_, h4⟩
      intro i hi
      by_cases hin : i ≤ n
      · exact h3 i hin
      · have : i = 1 + n := by omega
        rw [this]
        omega

/-- When the postponement test is true at every later index, the selection is the
running minimum with strict replacement. -/
theorem selectPair_unconstrained (g : Gdk) (flag : Int) (s : PathState)
    (h : ∀ i, 1 ≤ i → i + 2 ≤ s.top →
      (¬ (s.postpone.getD i false = true ∧ s.postpone.getD (i + 1) false = true)
        ∨ s.postponed < s.top)) :
    selectPair g flag s = (List.range' 1 (s.top - 2)).foldl
      (fun (acc : Nat × Nat) i =>
        if ALGjoinCost g (s.joins.getD i default) (s.joins.getD (i + 1) default) flag < acc.1
        then (ALGjoinCost g (s.joins.getD i default) (s.joins.getD (i + 1) default) flag, i)
        else acc)
      (ALGjoinCost g (s.joins.getD 0 default) (s.joins.getD (0 + 1) default) flag, 0) := by
  unfold selectPair
  apply List.foldl_ext
  intro acc i hi
  rw [List.mem_range'_1] at hi
  have hc := h i hi.1 (by omega)
  dsimp only
  by_cases hlt : ALGjoinCost g (s.joins.getD i default) (s.joins.getD (i + 1) default) flag < acc.1
  · rw [if_pos ⟨hlt, hc⟩, if_pos hlt]
  · rw [if_neg hlt, if_neg (fun hh => hlt hh.1)]

/-- While `postponed < top` the selection does not depend on the postpone flags. -/
theorem selectPair_ignores_flags (g : Gdk) (flag : Int) (s : PathState) (p : List Bool)
    (h : s.postponed < s.top) :
    selectPair g flag { s with postpone := p } = selectPair g flag s := by
  rw [selectPair_unconstrained g flag s (fun _ _ _ => Or.inr h),
    selectPair_unconstrained g flag { s with postpone := p } (fun _ _ _ => Or.inr h)]

/-- The selected pair under an idle postponement test: the earliest adjacent pair of
least estimate. -/
theorem selectPair_argmin (g : Gdk) (flag : Int) (s : PathState) (h2 : 2 ≤ s.top)
    (h : ∀ i, 1 ≤ i → i + 2 ≤ s.top →
      (¬ (s.postpone.getD i false = true ∧ s.postpone.getD (i + 1) false = true)
        ∨ s.postponed < s.top)) :
    (selectPair g flag s).2 + 1 < s.top ∧
    (∀ i, i + 1 < s.top →
      ALGjoinCost g (s.joins.getD (selectPair g flag s).2 default)
          (s.joins.getD ((selectPair g flag s).2 + 1) default) flag
        ≤ ALGjoinCost g (s.joins.getD i default) (s.joins.getD (i + 1) default) flag) ∧
    (∀ i, i < (selectPair g flag s).2 →
      ALGjoinCost g (s.joins.getD (selectPair g flag s).2 default)
          (s.joins.getD ((selectPair g flag s).2 + 1) default) flag
        < ALGjoinCost g (s.joins.getD i default) (s.joins.getD (i + 1) default) flag) := by
  have hb := selectPair_bound g flag s h2
  rw [selectPair_unconstrained g flag s h] at hb ⊢
  obtain ⟨_, _, h3, h4⟩ := argmin_fold
    (fun i => ALGjoinCost g (s.joins.getD i default) (s.joins.getD (i + 1) default) flag)
    (s.top - 2)
  refine ⟨by omega, ?_, ?_⟩
  · intro i hi
    exact h3 i (by omega)
  · intro i hi
    exact h4 i hi

/-- In the modes 0, 1 and 3 the `switch` invokes the primitive that `modeCall` names. -/
theorem execute_modeCall (prims : Nat → PrimCall → Option BAT) (flag : Int) (j : Nat)
    (s : PathState) (hmode : flag = 0 ∨ flag = 1 ∨ flag = 3) :
    execute prims flag j s = invoke prims (modeCall flag s.joins j) s := by
  have hmin : ∀ a b : Nat, (if a < b then a else b) = min a b := by
    intro a b
    by_cases hab : a < b
    · rw [if_pos hab, Nat.min_eq_left (le_of_lt hab)]
    · rw [if_neg hab, Nat.min_eq_right (by omega)]
  unfold execute modeCall
  dsimp only
  rw [hmin]
  rcases hmode with hf | hf | hf
  · subst hf
    by_cases hj : j = 0
    · subst hj
      simp
    · simp [hj]
  · subst hf
    simp
  · subst hf
    simp

theorem resetPostponed_getD (p : List Bool) (n i : Nat) :
    (resetPostponed p n).getD i false = if i < n then false else p.getD i false := by
  unfold resetPostponed
  induction n with
  | zero => simp
  | succ n ih =>
    rw [List.range_succ, List.foldl_append]
    simp only [List.foldl_cons, List.foldl_nil]
    simp only [List.getD_eq_getElem?_getD, List.getElem?_set] at ih ⊢
    by_cases hni : n = i
    · subst hni
      rw [if_pos rfl, if_pos (Nat.lt_succ_self n)]
      split <;> rfl
    · rw [if_neg hni, ih]
      by_cases hin : i < n
      · rw [if_pos hin, if_pos (by omega)]
      · rw [if_neg hin, if_neg (by omega)]

theorem getD_set_set_beyond (p : List Bool) (j i : Nat) (h : j + 1 < i) :
    ((p.set j true).set (j + 1) true).getD i false = p.getD i false := by
  simp only [List.getD_eq_getElem?_getD, List.getElem?_set]
  rw [if_neg (by omega), if_neg (by omega)]

theorem initState_clear (top : Nat) (joins : List BAT) (i : Nat) :
    (initState top joins).postpone.getD i false = false := by
  show (List.replicate top false).getD i false = false
  simp only [List.getD_eq_getElem?_getD, List.getElem?_replicate]
  split <;> rfl

theorem initState_postponeInv (top : Nat) (joins : List BAT) :
    PostponeInv (initState top joins) := by
  intro i _
  show (List.replicate top false).getD i false = false
  simp only [List.getD_eq_getElem?_getD, List.getElem?_replicate]
  split <;> rfl

/-- The planner returns with enough fuel, whatever the outcome of its allocation. -/
theorem body_total (g : Gdk) (prims : Nat → PrimCall → Option BAT) (fuel top : Nat)
    (joins : List BAT) (flag : Int) (zallocOk : Bool) (hlen : top ≤ joins.length)
    (hfuel : top * top + top ≤ fuel) :
    ∃ res, ALGjoinPathBody g prims fuel zallocOk top joins flag = some res := by
  cases zallocOk with
  | false => exact ⟨_, rfl⟩
  | true =>
    by_cases hk : 1 ≤ top
    · obtain ⟨ret, s, hrun, _⟩ := body_calls_bound g prims fuel top joins flag hk hlen hfuel
      exact ⟨_, hrun⟩
    · have h0 : ¬ 1 < (initState top joins).top := by
        show ¬ 1 < top
        omega
      unfold ALGjoinPathBody
      rw [if_pos rfl]
      unfold whileLoop
      rw [if_neg h0]
      exact ⟨_, rfl⟩

/-- The effect of one pass through the loop body in the modes 0, 1 and 3, by the result
of the primitive it invokes. -/
theorem loopBody_effect (g : Gdk) (prims : Nat → PrimCall → Option BAT) (flag : Int)
    (s : PathState) (hinv : PathInv s) (hpp : PostponeInv s) (htop : 1 < s.top)
    (hmode : flag = 0 ∨ flag = 1 ∨ flag = 3) :
    (∀ B, prims s.calls.length (modeCall flag s.joins (selectPair g flag s).2) = some B →
      ∃ s2, loopBody g prims flag s = .next s2 ∧ s2.top = s.top - 1 ∧
        s2.joins.take s2.top = s.joins.take (selectPair g flag s).2 ++
          B :: (s.joins.take s.top).drop ((selectPair g flag s).2 + 2) ∧
        (s2.joins.take s2.top).length = s.top - 1 ∧
        (∀ i, s2.postpone.getD i false = false) ∧ s2.postponed = 0 ∧
        PathInv s2 ∧ PostponeInv s2) ∧
    (prims s.calls.length (modeCall flag s.joins (selectPair g flag s).2) = none →
      ∀ s2, loopBody g prims flag s = .next s2 →
        s2.joins = s.joins ∧ s2.top = s.top ∧ PathInv s2 ∧ PostponeInv s2) := by
  have hj := selectPair_bound g flag s (by omega)
  have hex := execute_modeCall prims flag (selectPair g flag s).2 s hmode
  have hcases := loopBody_cases g prims flag s
  dsimp only at hcases
  rw [hex] at hcases
  generalize (selectPair g flag s).2 = j at *
  obtain ⟨h1, h2, h3⟩ := hinv
  constructor
  · intro B hB
    rcases hcases with ⟨hb, _⟩ | ⟨hb, _⟩ | ⟨b, hb, hn⟩
    · have hb' : prims s.calls.length (modeCall flag s.joins j) = none := hb
      rw [hB] at hb'; cases hb'
    · have hb' : prims s.calls.length (modeCall flag s.joins j) = none := hb
      rw [hB] at hb'; cases hb'
    · have hb' : prims s.calls.length (modeCall flag s.joins j) = some b := hb
      rw [hB] at hb'
      injection hb' with hb'
      subst hb'
      have hnext := loopBody_next g prims flag s _ ⟨h1, h2, h3⟩ htop hn
      have htake : (shiftJoins (s.joins.set j B) j (s.top - 1)).take (s.top - 1)
          = s.joins.take j ++ B :: (s.joins.take s.top).drop (j + 2) :=
        shiftJoins_take s.joins B j s.top hj h2
      have hall : ∀ i, (resetPostponed s.postpone s.top).getD i false = false := by
        intro i
        rw [resetPostponed_getD]
        by_cases hi : i < s.top
        · rw [if_pos hi]
        · rw [if_neg hi]; exact hpp i (by omega)
      refine ⟨_, hn, rfl, htake, ?_, hall, rfl, hnext.1, fun i _ => hall i⟩
      show ((shiftJoins (s.joins.set j B) j (s.top - 1)).take (s.top - 1)).length = s.top - 1
      rw [List.length_take, length_shiftJoins, List.length_set]
      omega
  · intro hN s2 hs2
    rcases hcases with ⟨_, s3, hr, _⟩ | ⟨_, _, hn, _⟩ | ⟨b, hb, _⟩
    · rw [hr] at hs2; cases hs2
    · have hnext := loopBody_next g prims flag s _ ⟨h1, h2, h3⟩ htop hn
      rw [hn] at hs2
      injection hs2 with hs2
      subst hs2
      refine ⟨rfl, rfl, hnext.1, ?_⟩
      intro i hi
      have hi' : s.top ≤ i := hi
      show ((s.postpone.set j true).set (j + 1) true).getD i false = false
      rw [getD_set_set_beyond _ _ _ (by omega)]
      exact hpp i hi'
    · have hb' : prims s.calls.length (modeCall flag s.joins j) = some b := hb
      rw [hN] at hb'; cases hb'

/-- The call log after one pass in the modes 0, 1 and 3: one invocation more, the one
`modeCall` names. -/
theorem loopBody_one_call (g : Gdk) (prims : Nat → PrimCall → Option BAT) (flag : Int)
    (s : PathState) (hmode : flag = 0 ∨ flag = 1 ∨ flag = 3) :
    (loopBody g prims flag s).calls = s.calls ++
      [(modeCall flag s.joins (selectPair g flag s).2,
        prims s.calls.length (modeCall flag s.joins (selectPair g flag s).2))] := by
  have hex := execute_modeCall prims flag (selectPair g flag s).2 s hmode
  rcases hbody : loopBody g prims flag s with s2 | ⟨b, s2⟩
  · have hc := loopBody_calls g prims flag s s2 none (Or.inl hbody)
    show s2.calls = _
    rw [hc, hex]
    rfl
  · have hc := loopBody_calls g prims flag s s2 b (Or.inr hbody)
    show s2.calls = _
    rw [hc, hex]
    rfl

/-! ## Lemmas: the chain evaluator -/

theorem chainPre_succ (g : Gdk) (n : Nat) (joins : List BAT) :
    chainPre g (n + 1) joins =
      (BATcount (joins.getD n default),
        (if BATcount (joins.getD n default) > (chainPre g n joins).2.1
          then BATcount (joins.getD n default) else (chainPre g n joins).2.1),
        (chainPre g n joins).2.2.1 + (if BATcount (joins.getD n default) = 0 then 1 else 0),
        (chainPre g n joins).2.2.2 ++
          [((joins.getD n default).first + 2 ^ g.bunBits
            - (joins.getD n default).hseqbase % 2 ^ g.bunBits) % 2 ^ g.bunBits]) := by
  unfold chainPre
  rw [List.range_succ, List.foldl_append]
  rfl

theorem chainPre_offset (g : Gdk) (n : Nat) (joins : List BAT) :
    (chainPre g n joins).2.2.2 = (List.range n).map (fun i =>
      ((joins.getD i default).first + 2 ^ g.bunBits
        - (joins.getD i default).hseqbase % 2 ^ g.bunBits) % 2 ^ g.bunBits) := by
  induction n with
  | zero => rfl
  | succ n ih =>
    rw [chainPre_succ, List.range_succ, List.map_append]
    dsimp only
    rw [ih]
    rfl

theorem chainPre_offset_getD (g : Gdk) (n i : Nat) (joins : List BAT) (hi : i < n) :
    (chainPre g n joins).2.2.2.getD i 0 =
      ((joins.getD i default).first + 2 ^ g.bunBits
        - (joins.getD i default).hseqbase % 2 ^ g.bunBits) % 2 ^ g.bunBits := by
  rw [chainPre_offset, List.getD_eq_getElem?_getD, List.getElem?_map, List.getElem?_range hi]
  rfl

theorem chainPre_empty (g : Gdk) (n : Nat) (joins : List BAT)
    (h : ∀ i, i < n → 0 < BATcount (joins.getD i default)) : (chainPre g n joins).2.2.1 = 0 := by
  induction n with
  | zero => rfl
  | succ n ih =>
    rw [chainPre_succ]
    dsimp only
    rw [ih (fun i hi => h i (Nat.lt_succ_of_lt hi))]
    have hn := h n (Nat.lt_succ_self n)
    rw [if_neg (by omega)]

theorem chainPre_cnt (g : Gdk) (n : Nat) (joins : List BAT) :
    (chainPre g (n + 1) joins).1 = BATcount (joins.getD n default) := by
  rw [chainPre_succ]

/-- The position `oc + offset` computed in `size_t` arithmetic is the position of the
element with head identifier `oc`. -/
theorem chain_position (M first hseq oc count : Nat) (h1 : hseq ≤ oc) (h2 : oc < hseq + count)
    (h3 : first + count ≤ M) (h4 : hseq + count ≤ M) :
    (oc + (first + M - hseq % M) % M) % M = first + (oc - hseq) := by
  have hM : hseq < M := by omega
  rw [Nat.mod_eq_of_lt hM]
  by_cases hfh : hseq ≤ first
  · have e0 : first + M - hseq = (first - hseq) + M := by omega
    have e1 : (first + M - hseq) % M = first - hseq := by
      rw [e0, Nat.add_mod_right]
      exact Nat.mod_eq_of_lt (by omega)
    have e2 : oc + (first - hseq) < M := by omega
    rw [e1, Nat.mod_eq_of_lt e2]
    omega
  · have e0 : first + M - hseq < M := by omega
    have e2 : oc + (first + M - hseq) = (first + (oc - hseq)) + M := by omega
    have e3 : first + (oc - hseq) < M := by omega
    rw [Nat.mod_eq_of_lt e0, e2, Nat.add_mod_right, Nat.mod_eq_of_lt e3]

/-- A lookup with an identifier of the head range of a well-formed column reads the tail
value at index `oc - hseqbase`. -/
theorem BUNtail_in_range (g : Gdk) (b : BAT) (oc : Nat) (hwf : wellFormed g b)
    (h1 : b.hseqbase ≤ oc) (h2 : oc < b.hseqbase + b.count) :
    BUNtail b ((oc + (b.first + 2 ^ g.bunBits - b.hseqbase % 2 ^ g.bunBits) % 2 ^ g.bunBits)
        % 2 ^ g.bunBits) = some (b.tail.getD (oc - b.hseqbase) 0) ∧
      b.tail.getD (oc - b.hseqbase) 0 ∈ b.tail := by
  obtain ⟨w1, w2, w3⟩ := hwf
  rw [chain_position _ _ _ _ b.count h1 h2 w2 w3]
  have hidx : oc - b.hseqbase < b.tail.length := by omega
  unfold BUNtail
  rw [if_pos (Nat.le_add_right _ _), Nat.add_sub_cancel_left, List.getD_eq_getElem?_getD,
    List.getElem?_eq_getElem hidx]
  exact ⟨rfl, List.getElem_mem _⟩

/-- On a well-formed chain, for a row whose identifiers stay in range, the inner loop of
lines 202-207 over the columns `a .. pcol - 1` is the walk of the specification, and it
ends with an identifier of the head range of the last column. -/
theorem chainLookups_spec (g : Gdk) (joins : List BAT) (offset : List Nat) (top : Nat)
    (h1 : 1 ≤ top) (hlen : top ≤ joins.length)
    (hoff : ∀ i, i < top → offset.getD i 0 =
      ((joins.getD i default).first + 2 ^ g.bunBits
        - (joins.getD i default).hseqbase % 2 ^ g.bunBits) % 2 ^ g.bunBits)
    (hwf : ∀ i, i < top → wellFormed g (joins.getD i default)) :
    ∀ (n a oc : Nat), a + n = top - 1 →
      walkInRange g.oid_nil ((joins.take top).drop a) oc = true →
      (specWalk g.oid_nil ((joins.take (top - 1)).drop a) oc = none →
        chainLookups g joins offset (List.range' a n) oc = .dropped) ∧
      (∀ oc2, specWalk g.oid_nil ((joins.take (top - 1)).drop a) oc = some oc2 →
        chainLookups g joins offset (List.range' a n) oc = .survived oc2 ∧
        (joins.getD (top - 1) default).hseqbase ≤ oc2 ∧
        oc2 < (joins.getD (top - 1) default).hseqbase
          + (joins.getD (top - 1) default).count) := by
  have hdrop : ∀ a, a < top → (joins.take top).drop a
      = joins.getD a default :: (joins.take top).drop (a + 1) := by
    intro a ha
    have hal : a < (joins.take top).length := by
      rw [List.length_take]; omega
    rw [List.drop_eq_getElem_cons hal]
    congr 1
    have hj : a < joins.length := by omega
    simp [List.getElem_take, List.getElem?_eq_getElem hj]
  intro n
  induction n with
  | zero =>
    intro a oc ha hwalk
    have hap : a = top - 1 := by omega
    subst hap
    have hnil : (joins.take (top - 1)).drop (top - 1) = [] := by
      apply List.drop_eq_nil_of_le
      rw [List.length_take]
      omega
    rw [hdrop (top - 1) (by omega)] at hwalk
    unfold walkInRange at hwalk
    rw [Bool.and_eq_true, decide_eq_true_eq] at hwalk
    rw [hnil]
    constructor
    · intro h; cases h
    · intro oc2 h
      injection h with h
      subst h
      exact ⟨rfl, hwalk.1.1, hwalk.1.2⟩
  | succ n ih =>
    intro a oc ha hwalk
    have hap : a < top - 1 := by omega
    have hal : a < (joins.take (top - 1)).length := by
      rw [List.length_take]; omega
    have hcons : (joins.take (top - 1)).drop a
        = joins.getD a default :: (joins.take (top - 1)).drop (a + 1) := by
      rw [List.drop_eq_getElem_cons hal]
      congr 1
      have hj : a < joins.length := by omega
      simp [List.getElem_take, List.getElem?_eq_getElem hj]
    rw [hdrop a (by omega)] at hwalk
    unfold walkInRange at hwalk
    rw [Bool.and_eq_true, decide_eq_true_eq, Bool.or_eq_true, beq_iff_eq] at hwalk
    obtain ⟨⟨r1, r2⟩, hcont⟩ := hwalk
    obtain ⟨hread, _⟩ := BUNtail_in_range g (joins.getD a default) oc (hwf a (by omega)) r1 r2
    rw [hcons, List.range'_succ]
    unfold specWalk chainLookups
    dsimp only
    rw [hoff a (by omega), hread]
    dsimp only
    by_cases hv : (joins.getD a default).tail.getD (oc - (joins.getD a default).hseqbase) 0
        = g.oid_nil
    · rw [if_pos hv, if_pos hv]
      exact ⟨fun _ => rfl, fun oc2 h => by cases h⟩
    · rw [if_neg hv, if_neg hv]
      rcases hcont with hc | hc
      · exact absurd hc hv
      · exact ih (a + 1) _ (by omega) hc

/-- On a well-formed chain in which the identifiers read along every row stay in range,
the row loop of lines 199-218 appends the values of the specification and counts
them. -/
theorem chainRows_spec (g : Gdk) (joins : List BAT) (top cnt : Nat)
    (h2 : 2 ≤ top) (hlen : top ≤ joins.length)
    (hwf : ∀ i, i < top → wellFormed g (joins.getD i default))
    (hwalk : ∀ v ∈ (joins.getD 0 default).tail,
      walkInRange g.oid_nil ((joins.take top).drop 1) v = true) :
    chainRows g joins (chainPre g top joins).2.2.2 (top - 1) cnt
      = (none, specChain g top joins, cnt + (specChain g top joins).length) := by
  have hoff : ∀ i, i < top → (chainPre g top joins).2.2.2.getD i 0 =
      ((joins.getD i default).first + 2 ^ g.bunBits
        - (joins.getD i default).hseqbase % 2 ^ g.bunBits) % 2 ^ g.bunBits :=
    fun i hi => chainPre_offset_getD g top i joins hi
  have hlook := chainLookups_spec g joins (chainPre g top joins).2.2.2 top
    (by omega) hlen hoff hwf (top - 1 - 1) 1
  have hcount : BATcount (joins.getD 0 default) ≤ (joins.getD 0 default).tail.length := by
    rw [(hwf 0 (by omega)).1]
    exact le_refl _
  have htake : (joins.getD 0 default).tail
      = (joins.getD 0 default).tail.take (BATcount (joins.getD 0 default)) := by
    rw [List.take_of_length_le]
    rw [(hwf 0 (by omega)).1]
    exact le_refl _
  unfold chainRows specChain
  conv_rhs => rw [htake]
  generalize BATcount (joins.getD 0 default) = n at hcount ⊢
  generalize (chainPre g top joins).2.2.2 = offset at hlook hoff ⊢
  induction n with
  | zero => rfl
  | succ n ih =>
    have hn : n < (joins.getD 0 default).tail.length := by omega
    rw [List.range_succ, List.foldl_append, ih (by omega), List.take_succ]
    simp only [List.foldl_cons, List.foldl_nil, List.getElem?_eq_getElem hn,
      Option.toList_some, List.filterMap_append]
    have hmem : (joins.getD 0 default).tail[n] ∈ (joins.getD 0 default).tail :=
      List.getElem_mem _
    obtain ⟨l1, l2⟩ := hlook ((joins.getD 0 default).tail[n]) (by omega) (hwalk _ hmem)
    unfold specChainRow
    rcases hw : specWalk g.oid_nil ((joins.take (top - 1)).drop 1)
        ((joins.getD 0 default).tail[n]) with _ | oc2
    · rw [l1 hw]
      simp only [List.filterMap_cons, List.filterMap_nil, hw, Option.map_none',
        List.append_nil]
    · obtain ⟨l3, l4, l5⟩ := l2 oc2 hw
      obtain ⟨hread, _⟩ := BUNtail_in_range g (joins.getD (top - 1) default) oc2
        (hwf (top - 1) (by omega)) l4 l5
      rw [l3]
      dsimp only
      rw [hoff (top - 1) (by omega), hread]
      simp only [List.filterMap_cons, List.filterMap_nil, hw, Option.map_some',
        List.length_append, List.length_singleton, Nat.add_assoc]

/-- `ALGjoinChain` with its first loop named. -/
theorem ALGjoinChain_eq (g : Gdk) (BATnew : Int → Int → Nat → Option BAT) (top : Nat)
    (joins : List BAT) :
    ALGjoinChain g BATnew top joins =
      match BATnew g.TYPE_void (joins.getD (top - 1) default).ttype (chainPre g top joins).2.1 with
      | none => .done none []
      | some bn =>
        if (chainPre g top joins).2.2.1 ≠ 0 then
          .done (some bn) []
        else
          match chainRows g joins (chainPre g top joins).2.2.2 (top - 1)
              (chainPre g top joins).1 with
          | (some (col, pos), _) => .fault col pos
          | (none, vals, cnt) =>
            .done (some { bn with tnonil := (joins.getD (top - 1) default).tnonil,
                                  tsorted := (joins.getD (top - 1) default).tsorted,
                                  trevsorted := (joins.getD (top - 1) default).trevsorted,
                                  tkey := (joins.getD (top - 1) default).tkey,
                                  tail := bn.tail ++ vals, count := cnt,
                                  hseqbase := (joins.getD 0 default).hseqbase })
              ((List.range top).map (fun i => (joins.getD i default).batCacheid)) := by
  rfl

/-- On a well-formed chain of non-empty columns in which the identifiers read along
every row stay in range, the chain evaluator completes, appends the values of the
specification to the column it allocated, and sets the count to the count of the last
column plus the number of values appended. -/
theorem ALGjoinChain_spec (g : Gdk) (BATnew : Int → Int → Nat → Option BAT) (top : Nat)
    (joins : List BAT) (b0 : BAT) (h2 : 2 ≤ top) (hlen : top ≤ joins.length)
    (hwf : ∀ i, i < top → wellFormed g (joins.getD i default))
    (hne : ∀ i, i < top → 0 < BATcount (joins.getD i default))
    (hwalk : ∀ v ∈ (joins.getD 0 default).tail,
      walkInRange g.oid_nil ((joins.take top).drop 1) v = true)
    (hnew : BATnew g.TYPE_void (joins.getD (top - 1) default).ttype (chainPre g top joins).2.1
      = some b0) :
    ∃ bn unfixed, ALGjoinChain g BATnew top joins = .done (some bn) unfixed ∧
      bn.tail = b0.tail ++ specChain g top joins ∧
      bn.count = BATcount (joins.getD (top - 1) default) + (specChain g top joins).length := by
  have hcnt : (chainPre g top joins).1 = BATcount (joins.getD (top - 1) default) := by
    obtain ⟨u, hu⟩ : ∃ u, top = u + 1 := ⟨top - 1, by omega⟩
    rw [hu, chainPre_cnt]
    rfl
  rw [ALGjoinChain_eq, hnew]
  dsimp only
  rw [chainPre_empty g top joins hne, if_neg (by simp),
    chainRows_spec g joins top _ h2 hlen hwf hwalk, hcnt]
  exact ⟨_, _, rfl, rfl, rfl⟩

/-! ## The claims on the chain evaluator, the dispatch and single steps -/

/-- C11, the code at the failing input: on the two-column foreign-key walk (three rows in
each column, output allocated) the chain evaluator emits the three values 97, 98, 99
and sets the count of the output to 6, above `count(C_0) = 3`: the counter still holds
the count of the last column from the first loop when the rows are counted. -/
theorem C11_output_count_includes_last_count :
    (match ALGjoinChain gdk64 freshBATnew 2 fkChain with
      | .done (some bn) _ => some (bn.count, bn.tail)
      | _ => none) = some (6, [97, 98, 99]) ∧
    BATcount (fkChain.getD 0 default) = 3 := by
  decide

/-- C12, the code at the failing input: on the three-column chain whose first column has
the null identifier in its third row, the walk of that row looks `oid_nil` up in `C_1`,
at position `2 ^ 63 - 10`, which is outside the three positions of `C_1`. -/
theorem C12_null_in_first_column_is_looked_up :
    ALGjoinChain gdk64 freshBATnew 3 nilChain = .fault 1 (2 ^ 63 - 10) := by
  decide

/-- C13: on a chain of `top ≥ 2` non-empty well-formed columns in which the tail of `C_0`
holds no null identifier and, along the walk of every row, each identifier read lies in
the head range of the next column, `ALGjoinChain` (its output allocated empty) completes
and the values it appends are, in the row order of `C_0`, those the algorithm of the
specification emits: the value of the last column at index `oc - head_seq_base` for the
rows whose walk through `C_1 .. C_{k-2}` meets no null identifier, nothing for the
others. -/
theorem C13_chain_values_follow_spec (g : Gdk) (BATnew : Int → Int → Nat → Option BAT)
    (top : Nat) (joins : List BAT) (b0 : BAT) (h2 : 2 ≤ top) (hlen : top ≤ joins.length)
    (hwf : ∀ i, i < top → wellFormed g (joins.getD i default))
    (hne : ∀ i, i < top → 0 < BATcount (joins.getD i default))
    (hnil0 : ∀ v ∈ (joins.getD 0 default).tail, v ≠ g.oid_nil)
    (hwalk : ∀ v ∈ (joins.getD 0 default).tail, v ≠ g.oid_nil →
      walkInRange g.oid_nil ((joins.take top).drop 1) v = true)
    (hnew : BATnew g.TYPE_void (joins.getD (top - 1) default).ttype (chainPre g top joins).2.1
      = some b0)
    (hb0 : b0.tail = []) :
    ∃ bn unfixed, ALGjoinChain g BATnew top joins = .done (some bn) unfixed ∧
      bn.tail = specChain g top joins := by
  obtain ⟨bn, unfixed, hrun, htail, _⟩ :=
    ALGjoinChain_spec g BATnew top joins b0 h2 hlen hwf hne
      (fun v hv => hwalk v hv (hnil0 v hv)) hnew
  refine ⟨bn, unfixed, hrun, ?_⟩
  rw [htail, hb0, List.nil_append]

theorem C13_chain_values_follow_spec_witness :
    2 ≤ 3 ∧ 3 ≤ midNilChain.length ∧
    (∀ i, i < 3 → wellFormed gdk64 (midNilChain.getD i default)) ∧
    (∀ i, i < 3 → 0 < BATcount (midNilChain.getD i default)) ∧
    (∀ v ∈ (midNilChain.getD 0 default).tail, v ≠ gdk64.oid_nil) ∧
    (∀ v ∈ (midNilChain.getD 0 default).tail, v ≠ gdk64.oid_nil →
      walkInRange gdk64.oid_nil ((midNilChain.take 3).drop 1) v = true) ∧
    (freshBATnew gdk64.TYPE_void (midNilChain.getD (3 - 1) default).ttype
        (chainPre gdk64 3 midNilChain).2.1
      = some { plainBAT 50 0 with htype := 0, ttype := 5 }) ∧
    ({ plainBAT 50 0 with htype := 0, ttype := 5 } : BAT).tail = [] ∧
    specChain gdk64 3 midNilChain = [97, 99] ∧
    ∃ bn unfixed, ALGjoinChain gdk64 freshBATnew 3 midNilChain = .done (some bn) unfixed ∧
      bn.tail = specChain gdk64 3 midNilChain :=
  ⟨by decide, by decide, by decide, by decide, by decide, by decide, by decide, by decide,
    by decide,
    C13_chain_values_follow_spec gdk64 freshBATnew 3 midNilChain
      { plainBAT 50 0 with htype := 0, ttype := 5 } (by decide) (by decide) (by decide)
      (by decide) (by decide) (by decide) (by decide) (by decide)⟩

/-- C14: for every request that passes the acquisition loop, `ALGjoinPath` calls
`ALGjoinPathBody` on the acquired columns with flag 1 for `joinPath`, flag 0 for
`leftjoinPath` and flag 3 for any other name, and publishes what that call returns; the
chain evaluator is not invoked, whatever the number of inputs and their counts. -/
theorem C14_dispatch_always_to_planner (g : Gdk) (d : Int → Option BAT)
    (BATnew : Int → Int → Nat → Option BAT) (prims : Nat → PrimCall → Option BAT)
    (fuel : Nat) (zallocOk : Bool) (fcn : String) (args : List Int)
    (hval : (acquireLoop g d args [] []).error = none)
    (hfuel : args.length * args.length + args.length ≤ fuel) :
    ∃ res, ALGjoinPathBody g prims fuel zallocOk args.length
        (acquireLoop g d args [] []).joins (dispatchFlag fcn) = some res ∧
      ALGjoinPath g d BATnew prims fuel true zallocOk fcn args =
        some (publish res.1 (acquireLoop g d args [] []).fixed res.2.unfixed res.2.calls
          (.body (dispatchFlag fcn))) := by
  have hlen : (acquireLoop g d args [] []).joins.length = args.length := by
    rw [acquireLoop_length g d args [] [] hval]
    simp
  obtain ⟨res, hres⟩ := body_total g prims fuel args.length (acquireLoop g d args [] []).joins
    (dispatchFlag fcn) zallocOk (by omega) hfuel
  refine ⟨res, hres, ?_⟩
  unfold ALGjoinPath
  simp only [Bool.not_true, Bool.false_eq_true, if_false, hval, chainFlag, false_and, hlen]
  unfold dispatchFlag at hres ⊢
  by_cases h1 : fcn = "joinPath"
  · simp only [if_pos h1] at hres ⊢
    rw [hres]
    rfl
  · by_cases h0 : fcn = "leftjoinPath"
    · simp only [if_neg h1, if_pos h0] at hres ⊢
      rw [hres]
      rfl
    · simp only [if_neg h1, if_neg h0] at hres ⊢
      rw [hres]
      rfl

theorem C14_dispatch_always_to_planner_witness :
    (acquireLoop gdk64 okBBP [1, 2] [] []).error = none ∧
    [(1 : Int), 2].length * [(1 : Int), 2].length + [(1 : Int), 2].length ≤ 6 ∧
    ∃ res, ALGjoinPathBody gdk64 freshPrims 6 true [(1 : Int), 2].length
        (acquireLoop gdk64 okBBP [1, 2] [] []).joins (dispatchFlag "projectionPath") = some res ∧
      ALGjoinPath gdk64 okBBP freshBATnew freshPrims 6 true true "projectionPath" [1, 2] =
        some (publish res.1 (acquireLoop gdk64 okBBP [1, 2] [] []).fixed res.2.unfixed
          res.2.calls (.body (dispatchFlag "projectionPath"))) :=
  ⟨by decide, by decide,
    C14_dispatch_always_to_planner gdk64 okBBP freshBATnew freshPrims 6 true "projectionPath"
      [1, 2] (by decide) (by decide)⟩

/-- C15, the code at the failing input: with four columns whose second pair is the
cheapest and a primitive that fails, the first pass postpones the pair `(J[1], J[2])`
and goes on with `postponed = 2 < top = 4`; at the next selection both `postpone[1]` and
`postpone[2]` are set and the selected index is again 1. -/
theorem C15_postponed_pair_selected_again :
    (match loopBody gdk64 allNull 1 (initState 4 path4) with
      | .next s => some (s.postponed, s.top, s.postpone, (selectPair gdk64 1 s).2)
      | .ret _ _ => none) = some (2, 4, [false, true, true, false], 1) := by
  decide

/-- C16: at a selection step with at least two live columns and no postpone flag set,
the selected index is an adjacent pair, its estimate is least among all adjacent pairs,
and every earlier pair has a strictly larger estimate. -/
theorem C16_selection_is_earliest_minimum (g : Gdk) (flag : Int) (s : PathState)
    (h2 : 2 ≤ s.top) (hclear : ∀ i, s.postpone.getD i false = false) :
    (selectPair g flag s).2 + 1 < s.top ∧
    (∀ i, i + 1 < s.top →
      ALGjoinCost g (s.joins.getD (selectPair g flag s).2 default)
          (s.joins.getD ((selectPair g flag s).2 + 1) default) flag
        ≤ ALGjoinCost g (s.joins.getD i default) (s.joins.getD (i + 1) default) flag) ∧
    (∀ i, i < (selectPair g flag s).2 →
      ALGjoinCost g (s.joins.getD (selectPair g flag s).2 default)
          (s.joins.getD ((selectPair g flag s).2 + 1) default) flag
        < ALGjoinCost g (s.joins.getD i default) (s.joins.getD (i + 1) default) flag) :=
  selectPair_argmin g flag s h2 (fun i _ _ => Or.inl (fun hh => by
    rw [hclear i] at hh
    exact Bool.false_ne_true hh.1))

theorem C16_selection_is_earliest_minimum_witness :
    2 ≤ (initState 4 path4).top ∧ (∀ i, (initState 4 path4).postpone.getD i false = false) ∧
    ((selectPair gdk64 1 (initState 4 path4)).2 + 1 < (initState 4 path4).top ∧
    (∀ i, i + 1 < (initState 4 path4).top →
      ALGjoinCost gdk64 ((initState 4 path4).joins.getD (selectPair gdk64 1 (initState 4 path4)).2 default)
          ((initState 4 path4).joins.getD ((selectPair gdk64 1 (initState 4 path4)).2 + 1) default) 1
        ≤ ALGjoinCost gdk64 ((initState 4 path4).joins.getD i default)
            ((initState 4 path4).joins.getD (i + 1) default) 1) ∧
    (∀ i, i < (selectPair gdk64 1 (initState 4 path4)).2 →
      ALGjoinCost gdk64 ((initState 4 path4).joins.getD (selectPair gdk64 1 (initState 4 path4)).2 default)
          ((initState 4 path4).joins.getD ((selectPair gdk64 1 (initState 4 path4)).2 + 1) default) 1
        < ALGjoinCost gdk64 ((initState 4 path4).joins.getD i default)
            ((initState 4 path4).joins.getD (i + 1) default) 1)) :=
  ⟨by decide, initState_clear 4 path4,
    C16_selection_is_earliest_minimum gdk64 1 (initState 4 path4) (by decide)
      (initState_clear 4 path4)⟩

/-- C17: in every pass through the loop body in mode 0, 1 or 3 exactly one primitive is
invoked, on the selected pair: the left join on `(J[0], J[1])` with hint `count(J[0])` in
mode 0 when the selected index is 0, the general join with hint the smaller of the two
counts in mode 1 and in mode 0 when the selected index is not 0, the projection in
mode 3. -/
theorem C17_one_primitive_per_step (g : Gdk) (prims : Nat → PrimCall → Option BAT)
    (flag : Int) (s : PathState) (hmode : flag = 0 ∨ flag = 1 ∨ flag = 3) :
    (loopBody g prims flag s).calls = s.calls ++
      [(modeCall flag s.joins (selectPair g flag s).2,
        prims s.calls.length (modeCall flag s.joins (selectPair g flag s).2))] :=
  loopBody_one_call g prims flag s hmode

theorem C17_one_primitive_per_step_witness :
    ((0 : Int) = 0 ∨ (0 : Int) = 1 ∨ (0 : Int) = 3) ∧
    (loopBody gdk64 freshPrims 0 (initState 3 ljPath)).calls = (initState 3 ljPath).calls ++
      [(modeCall 0 (initState 3 ljPath).joins (selectPair gdk64 0 (initState 3 ljPath)).2,
        freshPrims (initState 3 ljPath).calls.length
          (modeCall 0 (initState 3 ljPath).joins (selectPair gdk64 0 (initState 3 ljPath)).2))] :=
  ⟨by decide, C17_one_primitive_per_step gdk64 freshPrims 0 (initState 3 ljPath) (by decide)⟩

/-- C18: one pass through the loop body in mode 0, 1 or 3, from a state with at least two
live columns that satisfies the loop invariants.  If the primitive returns a column `B`,
the pass goes on with the live array `J[0..j*)`, `B`, `J[j*+2..top)`, of length
`top - 1`, every postpone flag false and `postponed = 0`; if the primitive returns
`NULL` and the pass goes on, the array and `top` are unchanged.  Both keep the
invariants. -/
theorem C18_step_effect_on_working_array (g : Gdk) (prims : Nat → PrimCall → Option BAT)
    (flag : Int) (s : PathState) (hinv : PathInv s) (hpp : PostponeInv s) (htop : 1 < s.top)
    (hmode : flag = 0 ∨ flag = 1 ∨ flag = 3) :
    (∀ B, prims s.calls.length (modeCall flag s.joins (selectPair g flag s).2) = some B →
      ∃ s2, loopBody g prims flag s = .next s2 ∧ s2.top = s.top - 1 ∧
        s2.joins.take s2.top = s.joins.take (selectPair g flag s).2 ++
          B :: (s.joins.take s.top).drop ((selectPair g flag s).2 + 2) ∧
        (s2.joins.take s2.top).length = s.top - 1 ∧
        (∀ i, s2.postpone.getD i false = false) ∧ s2.postponed = 0 ∧
        PathInv s2 ∧ PostponeInv s2) ∧
    (prims s.calls.length (modeCall flag s.joins (selectPair g flag s).2) = none →
      ∀ s2, loopBody g prims flag s = .next s2 →
        s2.joins = s.joins ∧ s2.top = s.top ∧ PathInv s2 ∧ PostponeInv s2) :=
  loopBody_effect g prims flag s hinv hpp htop hmode

theorem C18_step_effect_on_working_array_witness :
    PathInv (initState 3 path3) ∧ PostponeInv (initState 3 path3) ∧
    1 < (initState 3 path3).top ∧ ((1 : Int) = 0 ∨ (1 : Int) = 1 ∨ (1 : Int) = 3) ∧
    freshPrims (initState 3 path3).calls.length
      (modeCall 1 (initState 3 path3).joins (selectPair gdk64 1 (initState 3 path3)).2)
      = some (plainBAT 100 10) ∧
    ∃ s2, loopBody gdk64 freshPrims 1 (initState 3 path3) = .next s2 ∧
      s2.top = (initState 3 path3).top - 1 ∧
      s2.joins.take s2.top
        = (initState 3 path3).joins.take (selectPair gdk64 1 (initState 3 path3)).2 ++
          plainBAT 100 10 :: ((initState 3 path3).joins.take (initState 3 path3).top).drop
            ((selectPair gdk64 1 (initState 3 path3)).2 + 2) ∧
      (s2.joins.take s2.top).length = (initState 3 path3).top - 1 ∧
      (∀ i, s2.postpone.getD i false = false) ∧ s2.postponed = 0 ∧
      PathInv s2 ∧ PostponeInv s2 :=
  ⟨initState_inv 3 path3 (by decide) (by decide), initState_postponeInv 3 path3, by decide,
    by decide, rfl,
    (C18_step_effect_on_working_array gdk64 freshPrims 1 (initState 3 path3)
      (initState_inv 3 path3 (by decide) (by decide)) (initState_postponeInv 3 path3)
      (by decide) (by decide)).1 (plainBAT 100 10) rfl⟩

/-- C19, the code at the failing inputs: on a chain whose first column is empty the chain
evaluator returns the allocated column without a single `BBPunfix`, and when the
allocation of the output fails it returns `NULL` without a single `BBPunfix`; only the
normal completion releases the inputs. -/
theorem C19_early_exits_release_nothing :
    (match ALGjoinChain gdk64 freshBATnew 2 emptyChain with
      | .done bn unfixed => some (bn.map (fun b => b.count), unfixed)
      | .fault _ _ => none) = some (some 0, []) ∧
    ALGjoinChain gdk64 noBATnew 2 fkChain = .done none [] ∧
    (match ALGjoinChain gdk64 freshBATnew 2 fkChain with
      | .done _ unfixed => some unfixed
      | .fault _ _ => none) = some [1, 2] := by
  decide

/-- C20: the estimate in left-join mode (`flag = 0`) is at least the estimate under any
other flag, and the estimate is the same under all flags other than 0. -/
theorem C20_leftjoin_estimate_is_largest (g : Gdk) (l r : BAT) (f f2 : Int)
    (hf : f ≠ 0) (hf2 : f2 ≠ 0) :
    ALGjoinCost g l r f ≤ ALGjoinCost g l r 0 ∧ ALGjoinCost g l r f = ALGjoinCost g l r f2 := by
  rw [ALGjoinCost_nonzero_flag g l r f hf, ALGjoinCost_nonzero_flag g l r f2 hf2]
  exact ⟨ALGjoinCost_leftjoin_ge g l r, rfl⟩

theorem C20_leftjoin_estimate_is_largest_witness :
    (1 : Int) ≠ 0 ∧ (3 : Int) ≠ 0 ∧
    ALGjoinCost gdk64 denseTail sortedHead 1 ≤ ALGjoinCost gdk64 denseTail sortedHead 0 ∧
    ALGjoinCost gdk64 denseTail sortedHead 1 = ALGjoinCost gdk64 denseTail sortedHead 3 :=
  ⟨by decide, by decide,
    C20_leftjoin_estimate_is_largest gdk64 denseTail sortedHead 1 3 (by decide) (by decide)⟩

end JoinPath
